import Mathlib

/-!
Verification of the hierarchical file/folder management engine of the
cipher-studio backend.

The development shallowly embeds the JavaScript sources:
  * `src/utils/fileHierarchy.js` (tree builder, hierarchy validator,
    descendant traversal, folder size, naming conflicts), and the
    database-utility file concatenated with it (`isRetryableError`,
    `handlePersistenceOperation`),
  * `src/controllers/projectController.js` (`deleteProject`).

Modelling conventions:
  * MongoDB documents become Lean structures; the flat record store is a
    `List FNode` passed explicitly to every function that queries it.
  * Object ids are `String`s; `findById` / `findOne` become `List.find?`.
  * JavaScript strings are modelled through their character data
    (`List Char`); `localeCompare` is modelled as a case-insensitive
    lexicographic comparison of code points, and the decimal rendering of
    a number in a template literal is modelled by `natToString`.
  * Unbounded recursion in the source (the ancestor walk, the descendant
    traversal, the unique-name loop, the retry loop) is embedded with an
    explicit fuel argument; exhausting the fuel (`none`, or a truncated
    result) models non-termination of the corresponding source loop.
  * Asynchronous store calls are pure lookups on the explicit store;
    timing (backoff delays, jitter) is irrelevant to the verified
    properties and is not modelled.
-/

/-- The `type` enum of a FileMetadata document (`enum: ['file','folder']`). -/
inductive FType where
  | file
  | folder
deriving DecidableEq, Repr

/-- A FileMetadata document (src/models, `fileMetadataSchema`): `_id`,
`projectId`, `name`, `type`, `parentId` (null for root), `size`, `s3Key`
(absent on folders).  Timestamps and `mimeType` play no role in the
verified claims and are omitted. -/
structure FNode where
  id : String
  projectId : String
  name : String
  type : FType
  parentId : Option String
  size : Nat
  s3Key : Option String
deriving DecidableEq, Repr

/-- `FileMetadata.findById(id)` on the flat store. -/
def findNode (files : List FNode) (i : String) : Option FNode :=
  files.find? (fun f => f.id == i)

/-- `FileMetadata.find({ parentId })`: the children of a query id (in store
order), `none` selecting root records (`parentId: null`). -/
def childrenOf (files : List FNode) (q : Option String) : List FNode :=
  files.filter (fun f => f.parentId == q)

/-! ### Character-level string utilities

JavaScript string primitives used by the source, modelled on the character
data of Lean strings. -/

/-- Case-insensitive key of a string: the lowered code points of its
characters.  Models the collation key that `a.name.localeCompare(b.name)`
compares (locale-aware comparison abstracted to ASCII case folding). -/
def lowerKey (s : String) : List Nat :=
  s.data.map (fun c => (Char.toLower c).toNat)

/-- Lexicographic `≤` on code-point lists. -/
def lexLE : List Nat → List Nat → Bool
  | [], _ => true
  | _ :: _, [] => false
  | a :: as, b :: bs => if a = b then lexLE as bs else decide (a < b)

/-- Substring test (`String.prototype.includes`) on character data. -/
def hasSub (hay needle : List Char) : Bool :=
  needle.isPrefixOf hay ||
    match hay with
    | [] => false
    | _ :: t => hasSub t needle

/-- `message.includes(sub)` after `toLowerCase()`. -/
def strContainsLower (s sub : String) : Bool :=
  hasSub (s.data.map Char.toLower) sub.data

/-- The decimal digit character of `n < 10`. -/
def digitChar (n : Nat) : Char := Char.ofNat (48 + n)

/-- Decimal digits of `n`, most significant first (fuelled so that the
definition is structural; `natDigits` supplies sufficient fuel). -/
def natDigitsAux : Nat → Nat → List Char
  | 0, _ => []
  | fuel+1, n => if n < 10 then [digitChar n] else natDigitsAux fuel (n / 10) ++ [digitChar (n % 10)]

/-- Decimal rendering of a natural number, as a JavaScript template
literal renders a (non-negative integral) number. -/
def natToString (n : Nat) : String :=
  ⟨natDigitsAux (n + 1) n⟩

/-- Decimal value of a digit string (left inverse of `natDigitsAux`,
used to prove the rendering injective). -/
def parseVal (l : List Char) : Nat :=
  l.foldl (fun a c => a * 10 + (c.toNat - 48)) 0

/-! ### `buildFileTree` (src/utils/fileHierarchy.js lines 6-69) -/

/-- A node of the in-memory tree built by `buildFileTree`: the file record
plus its ordered children. -/
inductive FTree where
  | mk (node : FNode) (children : List FTree)

/-- The record wrapped at the root of a tree node. -/
def FTree.node : FTree → FNode
  | .mk n _ => n

/-- The child list of a tree node. -/
def FTree.children : FTree → List FTree
  | .mk _ cs => cs

/-- The sibling comparator of `buildFileTree` (`sortChildren` and the root
sort, lines 42-49 and 58-63): folders sort before files; within one type,
ascending case-insensitive lexicographic order of `name`
(`a.name.localeCompare(b.name)`).  `nodeLE a b` states that `a` may appear
(weakly) before `b`. -/
def nodeLE (a b : FNode) : Bool :=
  if a.type = b.type then lexLE (lowerKey a.name) (lowerKey b.name)
  else a.type == FType.folder

/-- The comparator lifted to tree nodes (the source sorts the arrays of
child tree objects, comparing their wrapped records). -/
def treeLE (a b : FTree) : Bool := nodeLE a.node b.node

/-- Recursive construction of the subtree rooted at record `f`: the
children are the records whose `parentId` is `f`'s id (the second pass of
`buildFileTree`, in store order), sorted by the sibling comparator
(`sortChildren`), each expanded recursively.  `fuel` bounds the recursion
depth; `buildFileTree` passes the store size, which the theorems show is
never exhausted on well-formed stores (on a store whose parent references
are cyclic the mutated JavaScript object graph has no finite tree
denotation, and the truncated result is never reached from a root). -/
def buildNode (files : List FNode) : Nat → FNode → FTree
  | 0, f => .mk f []
  | fuel+1, f =>
    .mk f (((childrenOf files (some f.id)).map (buildNode files fuel)).mergeSort treeLE)

/-- The forest built from a flat store: the trees of the records with
`parentId` null (`rootFiles`, in store order), sorted by the same
comparator. -/
def buildForest (files : List FNode) : List FTree :=
  ((childrenOf files none).map (buildNode files files.length)).mergeSort treeLE

/-- `buildFileTree(files)` (lines 6-69): a null/undefined or empty input
returns `[]`; otherwise the sorted forest. -/
def buildFileTree (files : Option (List FNode)) : List FTree :=
  match files with
  | none => []
  | some fs => if fs.length = 0 then [] else buildForest fs

/-- All records appearing in a forest (each tree's record and, recursively,
the records of its children). -/
def flattenF : List FTree → List FNode
  | [] => []
  | .mk n cs :: ts => n :: (flattenF cs ++ flattenF ts)

/-- All subtrees of a forest (every tree together with all nested trees). -/
def subtreesF : List FTree → List FTree
  | [] => []
  | .mk n cs :: ts => .mk n cs :: (subtreesF cs ++ subtreesF ts)

/-- Adjacent siblings of one level are in comparator order. -/
def chainNodes : List FTree → Bool
  | [] => true
  | [_] => true
  | a :: b :: ts => nodeLE a.node b.node && chainNodes (b :: ts)

/-- Every child list anywhere in the forest is in comparator order. -/
def childListsOrdered : List FTree → Bool
  | [] => true
  | .mk _ cs :: ts => (chainNodes cs && childListsOrdered cs) && childListsOrdered ts

/-- The forest is ordered at every level: the root list and, recursively,
every child list. -/
def forestOrdered (ts : List FTree) : Bool :=
  chainNodes ts && childListsOrdered ts

/-! ### `isFileDescendant` (lines 108-119) and
`validateHierarchyOperation` (lines 74-103) -/

/-- `isFileDescendant(fileId, ancestorId)`: recursive ancestor-chain walk.
The source recursion is unbounded; `fuel` makes it a function, and a
`none` result models a run of the source that has not terminated within
`fuel` steps. -/
def isFileDescendant (files : List FNode) : Nat → String → String → Option Bool
  | 0, _, _ => none
  | fuel+1, fileId, ancestorId =>
    match findNode files fileId with
    | none => some false
    | some f =>
      match f.parentId with
      | none => some false
      | some pid =>
        if pid == ancestorId then some true
        else isFileDescendant files fuel pid ancestorId

/-- `validateHierarchyOperation(fileId, newParentId, projectId)`:
`some (.ok true)` on success, `some (.error msg)` for a thrown error,
`none` when the inner ancestor walk does not terminate within `fuel`.
Faithful to the source: every check is guarded by `if (newParentId)`; the
moved node is looked up first, the cycle guard runs next (only for
folders), and the new parent is looked up last by the single query
`{_id, projectId, type: 'folder'}`. -/
def validateHierarchyOperation (files : List FNode) (fuel : Nat) (fileId : String)
    (newParentId : Option String) (projectId : String) : Option (Except String Bool) :=
  match newParentId with
  | none => some (.ok true)
  | some npid =>
    match findNode files fileId with
    | none => some (.error "File not found")
    | some f =>
      match (if f.type = FType.folder then isFileDescendant files fuel npid fileId
             else some false) with
      | none => none
      | some true => some (.error "Cannot move folder into its own descendant")
      | some false =>
        match files.find? (fun p =>
            p.id == npid && p.projectId == projectId && p.type == FType.folder) with
        | none => some (.error "New parent folder not found")
        | some _ => some (.ok true)

/-- The termination claim of the spec for `isFileDescendant`: some fuel
suffices for the source recursion to produce a result. -/
def IsFdTerminates (files : List FNode) (fileId ancestorId : String) : Prop :=
  ∃ n b, isFileDescendant files n fileId ancestorId = some b

/-! ### `getAllDescendants` (lines 124-141) and
`calculateFolderSize` (lines 146-151) -/

/-- The recursive collection of `getAllDescendants`: fetch the children of
the current id, push each child, and recurse into child folders.  `fuel`
bounds the depth of the source recursion. -/
def getChildrenRec (files : List FNode) : Nat → String → List FNode
  | 0, _ => []
  | fuel+1, pid =>
    (childrenOf files (some pid)).flatMap
      (fun c => c :: (if c.type = FType.folder then getChildrenRec files fuel c.id else []))

/-- `getAllDescendants(folderId)`. -/
def getAllDescendants (files : List FNode) (fuel : Nat) (folderId : String) : List FNode :=
  getChildrenRec files fuel folderId

/-- `calculateFolderSize(folderId)`: filter the descendants to files and
fold their sizes (`reduce((total, file) => total + (file.size || 0), 0)`;
sizes are naturals, so the `|| 0` default is the value itself). -/
def calculateFolderSize (files : List FNode) (fuel : Nat) (folderId : String) : Nat :=
  ((getAllDescendants files fuel folderId).filter (fun f => f.type == FType.file)).foldl
    (fun total f => total + f.size) 0

/-! ### `checkNamingConflict` (lines 176-189) and
`generateUniqueName` (lines 194-209) -/

/-- `checkNamingConflict(projectId, name, parentId, excludeId)`: a sibling
with the same `(projectId, parentId, name)` exists, excluding `excludeId`
(`_id: { $ne: excludeId }`). -/
def checkNamingConflict (files : List FNode) (projectId name : String)
    (parentId : Option String) (excludeId : Option String) : Bool :=
  (files.find? (fun f =>
      f.projectId == projectId && f.name == name && f.parentId == parentId &&
        (match excludeId with
         | some e => !(f.id == e)
         | none => true))).isSome

/-- The stem of `baseName`: `baseName.substring(0, baseName.lastIndexOf('.'))`
when the name contains a `.`, else `baseName` itself. -/
def nameStem (baseName : String) : String :=
  if baseName.data.contains '.' then
    ⟨baseName.data.take
      (baseName.data.length - ((baseName.data.reverse.takeWhile (fun c => c ≠ '.')).length + 1))⟩
  else baseName

/-- The extension of `baseName`: `'.' + baseName.split('.').pop()` when the
name contains a `.`, else the empty suffix. -/
def nameExt (baseName : String) : String :=
  if baseName.data.contains '.' then
    ⟨'.' :: (baseName.data.reverse.takeWhile (fun c => c ≠ '.')).reverse⟩
  else ""

/-- The candidate produced for counter `n`:
`` `${nameWithoutExt} (${counter})${extension}` ``. -/
def candidateName (baseName : String) (n : Nat) : String :=
  nameStem baseName ++ " (" ++ natToString n ++ ")" ++ nameExt baseName

/-- The `while` loop of `generateUniqueName`: re-check the conflict for the
current `name`; on conflict produce the next candidate and loop.  `fuel`
bounds the number of retries (each call performs one conflict check). -/
def genUniqueAux (files : List FNode) (projectId : String) (parentId : Option String)
    (excludeId : Option String) (baseName : String) :
    String → Nat → Nat → Option String
  | name, counter, fuel =>
    if checkNamingConflict files projectId name parentId excludeId then
      match fuel with
      | 0 => none
      | fuel'+1 =>
        genUniqueAux files projectId parentId excludeId baseName
          (candidateName baseName counter) (counter + 1) fuel'
    else some name

/-- `generateUniqueName(projectId, baseName, parentId, excludeId)`:
starts from `baseName` with counter 1.  A `some` result is produced after
at most `fuel + 1` conflict checks. -/
def generateUniqueName (files : List FNode) (projectId baseName : String)
    (parentId : Option String) (excludeId : Option String) (fuel : Nat) : Option String :=
  genUniqueAux files projectId parentId excludeId baseName baseName 1 fuel

/-! ### The persistence retry layer (`isRetryableError`,
`handleDatabaseOperation`, `handlePersistenceOperation` of the database
utility file concatenated in src/utils/fileHierarchy.js, lines 246-385) -/

/-- A JavaScript store error as inspected by `isRetryableError`:
`message` (possibly absent), numeric `code`, and constructor `name`. -/
structure JsError where
  message : Option String
  code : Option Nat
  name : Option String
deriving DecidableEq, Repr

/-- `isRetryableError(error)` (lines 350-385): connection/timeout message
classes, the fixed list of transient MongoDB codes (including 11000,
"Duplicate key (might be temporary)"), and the Mongo network error
names. -/
def isRetryableError (error : Option JsError) : Bool :=
  match error with
  | none => false
  | some e =>
    let msg := (e.message.map (fun m => m)).getD ""
    if strContainsLower msg "connection" || strContainsLower msg "timeout" then true
    else if (match e.code with
             | some c => [11000, 16500, 189, 91, 7, 6, 89, 9001].contains c
             | none => false) then true
    else match e.name with
         | some n => n == "MongoNetworkError" || n == "MongoTimeoutError"
         | none => false

/-- The options record of `handlePersistenceOperation` (defaults
`maxRetries = 3`, `enableRetry = true`, `context = {}`); the backoff
delays do not influence any returned value and are not modelled. -/
structure RetryOptions where
  maxRetries : Nat
  enableRetry : Bool
  context : String
deriving DecidableEq, Repr

/-- The defaults of `handlePersistenceOperation`'s option object. -/
def defaultRetryOptions : RetryOptions := ⟨3, true, ""⟩

/-- The enriched failure thrown on the final attempt (lines 324-331):
operation name, attempt count, retryability flag, the originating error,
and the caller-supplied context. -/
structure EnhancedError where
  operationName : String
  attempts : Nat
  retryable : Bool
  originalError : JsError
  context : String
deriving DecidableEq, Repr

/-- A failure escaping the persistence layer: the raw store error (the
no-retry `handleDatabaseOperation` path re-throws it unchanged) or the
enriched error of the retry path. -/
inductive PersistFailure where
  | plain (e : JsError)
  | enriched (e : EnhancedError)
deriving DecidableEq, Repr

/-- One attempt of the wrapped operation: the connectivity check
(`isConnected()`) throws `'Database connection lost'` inside the `try`
block, otherwise the operation itself runs.  The operation is modelled as
a function from the (1-based) attempt number to its outcome. -/
def attemptResult (connected : Bool) (op : Nat → Except JsError α) (attempt : Nat) :
    Except JsError α :=
  if connected then op attempt else .error ⟨some "Database connection lost", none, none⟩

/-- The retry loop of `handlePersistenceOperation` (lines 301-342).
`attempt` is the 1-based attempt counter and `fuelRem = maxRetries -
attempt` the remaining retries; `attempt === maxRetries || !isRetryable`
raises the enriched error, otherwise the loop continues after the backoff
delay.  The successful result is returned together with the attempt
number on which it was produced (the source logs it; the pair makes the
recorded attempt count part of the embedded result). -/
def persistGo (connected : Bool) (op : Nat → Except JsError α) (operationName : String)
    (context : String) : Nat → Nat → Except EnhancedError (α × Nat)
  | attempt, fuelRem =>
    match attemptResult connected op attempt with
    | .ok a => .ok (a, attempt)
    | .error e =>
      let r := isRetryableError (some e)
      if fuelRem = 0 || !r then
        .error ⟨operationName, attempt, r, e, context⟩
      else
        match fuelRem with
        | 0 => .error ⟨operationName, attempt, r, e, context⟩
        | frem+1 => persistGo connected op operationName context (attempt + 1) frem

/-- `handlePersistenceOperation(operation, operationName, options)`
(lines 287-345): with `enableRetry: false` it defers to
`handleDatabaseOperation` (connectivity check, single attempt, raw error
re-thrown); otherwise it runs the retry loop starting at attempt 1 with
`maxRetries - 1` retries remaining (the loop never runs zero attempts:
`maxRetries` is a positive count, 3 by default). -/
def handlePersistenceOperation (connected : Bool) (op : Nat → Except JsError α)
    (operationName : String) (options : RetryOptions) :
    Except PersistFailure (α × Nat) :=
  if options.enableRetry then
    match persistGo connected op operationName options.context 1 (options.maxRetries - 1) with
    | .ok p => .ok p
    | .error e => .error (.enriched e)
  else
    match (if connected then op 1
           else .error (⟨some "Database not connected", none, none⟩ : JsError)) with
    | .ok a => .ok (a, 1)
    | .error e => .error (.plain e)

/-! ### `deleteProject` (src/controllers/projectController.js, lines
369-467) -/

/-- A Project document (only the fields the delete path touches). -/
structure ProjectR where
  id : String
  userId : String
deriving DecidableEq, Repr

/-- The persistent state touched by project deletion: the Project and
FileMetadata collections of the record store and the set of keys present
in the blob store. -/
structure DBState where
  projects : List ProjectR
  files : List FNode
  blobs : List String
deriving DecidableEq, Repr

/-- The response of `deleteProject`: HTTP status, the `success` flag, and
the reported `deletedFiles` / `deletedS3Objects` counts. -/
structure DeleteResponse where
  status : Nat
  success : Bool
  deletedFiles : Nat
  deletedS3Objects : Nat
deriving DecidableEq, Repr

/-- The s3Keys collected for deletion: `files.filter(f => f.s3Key)` keeps
the truthy keys (folders have none; the empty string is falsy). -/
def collectS3Keys (files : List FNode) : List String :=
  files.filterMap (fun f =>
    match f.s3Key with
    | some k => if k = "" then none else some k
    | none => none)

/-- `deleteProject` on a state, for a request id.  `s3Ok` models whether
the blob-store batch delete succeeds; on failure the controller logs and
continues with the database cleanup (lines 413-420), so the blob set is
left unchanged while the record deletions and the success response still
happen.  The multiple id-lookup strategies of the source collapse to one
lookup since ids are plain strings here. -/
def deleteProject (st : DBState) (s3Ok : Bool) (reqId : String) :
    DeleteResponse × DBState :=
  match st.projects.find? (fun p => p.id == reqId) with
  | none => (⟨404, false, 0, 0⟩, st)
  | some _ =>
    let fs := st.files.filter (fun f => f.projectId == reqId)
    let keys := collectS3Keys fs
    let blobs' := if s3Ok then st.blobs.filter (fun b => !(keys.contains b)) else st.blobs
    let files' := st.files.filter (fun f => !(f.projectId == reqId))
    let projects' := st.projects.filter (fun p => !(p.id == reqId))
    (⟨200, true, fs.length, keys.length⟩, ⟨projects', files', blobs'⟩)

/-! ### Ancestor chains and reachability

Specification-side notions used to state and prove the structural claims:
the resolved parent of a record, the iterated parent chain, and
reachability of a record from a query point through child edges. -/

/-- The resolved parent of a record: look up its `parentId` in the store. -/
def par (files : List FNode) (f : FNode) : Option FNode :=
  f.parentId.bind (findNode files)

/-- The `j`-th element of the ancestor chain of `f` (`chainIdx files 0 f =
some f`); `none` once the walk has stopped (no parent, or a dangling
`parentId`). -/
def chainIdx (files : List FNode) : Nat → FNode → Option FNode
  | 0, f => some f
  | j+1, f =>
    match par files f with
    | none => none
    | some p => chainIdx files j p

/-- The number of resolved-parent steps after which the ancestor chain of
`f` stops, when it stops within `fuel` steps (`none` otherwise: the walk
is still inside a longer — possibly cyclic — chain). -/
def chainLen (files : List FNode) : Nat → FNode → Option Nat
  | 0, f =>
    match par files f with
    | none => some 0
    | some _ => none
  | fuel+1, f =>
    match par files f with
    | none => some 0
    | some p => (chainLen files fuel p).map (· + 1)

/-- Every record's ancestor chain stops within `files.length` steps: the
store has no parent cycle.  (A chain without repetitions visits at most
`files.length` records.) -/
def allRooted (files : List FNode) : Bool :=
  files.all (fun f => (chainLen files files.length f).isSome)

/-- No record's `parentId` dangles: every non-null `parentId` resolves in
the store. -/
def noDangling (files : List FNode) : Bool :=
  files.all (fun f =>
    match f.parentId with
    | some pid => (findNode files pid).isSome
    | none => true)

/-- Every resolved parent is a folder (invariant I4 of the spec's data
model). -/
def parentsFolders (files : List FNode) : Bool :=
  files.all (fun f =>
    match par files f with
    | some p => p.type == FType.folder
    | none => true)

/-- `x` hangs below the query point `q` within `fuel` child steps, every
strictly intermediate record (and the top record below `q`) passing the
`gate`: the walk from `x` reaches a record whose `parentId` equals `q`,
all chain records strictly above `x` being gated.  For `gate := fun _ =>
true` this is plain proper reachability from `q`; for the folder gate it
characterises what the descendant traversal of the source collects. -/
def descD (files : List FNode) (gate : FNode → Bool) : Nat → FNode → Option String → Bool
  | 0, _, _ => false
  | k+1, x, q =>
    x.parentId == q ||
      (match par files x with
       | none => false
       | some p => gate p && descD files gate k p q)

/-- The chain form of `descD`: some element of `x`'s ancestor chain (at
position `j < k`) has `parentId = q`, with every chain element strictly
above `x` up to that position passing the gate. -/
def ChainHit (files : List FNode) (gate : FNode → Bool) (k : Nat) (x : FNode)
    (q : Option String) : Prop :=
  ∃ j, j < k ∧ ∃ y, chainIdx files j x = some y ∧ y.parentId = q ∧
    ∀ i, 1 ≤ i → i ≤ j → ∃ z, chainIdx files i x = some z ∧ gate z = true

/-- The generic preorder collection of all records below a query point:
fetch the records whose `parentId` matches the query, emit each one, and
expand those passing the `gate`.  `getChildrenRec` is this collector with
the folder gate, and the forest built by `buildFileTree` flattens to this
collector with the trivial gate. -/
def collectG (files : List FNode) (gate : FNode → Bool) : Nat → Option String → List FNode
  | 0, _ => []
  | fuel+1, q =>
    (childrenOf files q).flatMap
      (fun c => c :: (if gate c then collectG files gate fuel (some c.id) else []))

/-- `y` is a proper descendant of the record with id `anc`: some element of
`y`'s ancestor chain has `parentId = anc`.  (The search bound
`files.length` is immaterial on stores satisfying `allRooted`, where every
chain stops within `files.length` steps.) -/
def properDescB (files : List FNode) (y : FNode) (anc : String) : Bool :=
  (List.range (files.length + 1)).any (fun j =>
    match chainIdx files j y with
    | some w => w.parentId == some anc
    | none => false)

/-! ### Concrete stores used by counterexamples and witnesses -/

/-- A malformed two-record store whose parent chain is cyclic
(`a.parentId = b`, `b.parentId = a`). -/
def cycStore : List FNode :=
  [⟨"a", "p", "a", .folder, some "b", 0, none⟩,
   ⟨"b", "p", "b", .folder, some "a", 0, none⟩]

/-- A record whose `parentId` points outside the store. -/
def orphanNode : FNode := ⟨"a", "p", "a.txt", .file, some "zzz", 0, some "k"⟩

/-- A duplicate-key store error (MongoDB error code 11000). -/
def dupKeyErr : JsError := ⟨some "E11000 duplicate key error collection", some 11000, none⟩

/-- A transient connectivity error (classified retryable by its message). -/
def timeoutErr : JsError := ⟨some "Operation timeout", none, none⟩

/-- A non-retryable store error. -/
def fatalErr : JsError := ⟨some "validation failed", none, none⟩

/-- The store of the folder-size example: folder `F` with files of sizes
100 and 250 and a nested folder `G` holding a file of size 50. -/
def sizeStore : List FNode :=
  [⟨"F", "p", "F", .folder, none, 0, none⟩,
   ⟨"f1", "p", "a.txt", .file, some "F", 100, some "k1"⟩,
   ⟨"f2", "p", "b.txt", .file, some "F", 250, some "k2"⟩,
   ⟨"G", "p", "G", .folder, some "F", 0, none⟩,
   ⟨"f3", "p", "c.txt", .file, some "G", 50, some "k3"⟩]

/-- A state with one project owning one file whose blob is stored. -/
def delState : DBState :=
  ⟨[⟨"p", "u"⟩], [⟨"f1", "p", "a.txt", .file, none, 3, some "k"⟩], ["k"]⟩

/-- A store with two root siblings conflicting with base name `App.js`. -/
def nameStore : List FNode :=
  [⟨"x1", "p", "App.js", .file, none, 1, some "k"⟩,
   ⟨"x2", "p", "App (1).js", .file, none, 1, some "k"⟩]

/-- A well-formed store for the move validator: folder `src` containing
folder `sub`, and a root file. -/
def moveStore : List FNode :=
  [⟨"src", "p", "src", .folder, none, 0, none⟩,
   ⟨"sub", "p", "sub", .folder, some "src", 0, none⟩,
   ⟨"app", "p", "App.js", .file, none, 10, some "k"⟩]

/-- The scope of a naming-conflict query: same project, same parent,
not the excluded record. -/
def inScope (projectId : String) (parentId : Option String) (excludeId : Option String)
    (f : FNode) : Bool :=
  f.projectId == projectId && f.parentId == parentId &&
    (match excludeId with
     | some e => !(f.id == e)
     | none => true)

/-- The pre-existing conflicting siblings for `generateUniqueName`: the
in-scope records whose name is the base name or one of the candidate
names potentially probed (the counter never exceeds the number of
in-scope siblings before the loop stops). -/
def conflictingSiblings (files : List FNode) (projectId : String) (parentId : Option String)
    (excludeId : Option String) (baseName : String) : List FNode :=
  files.filter (fun f =>
    inScope projectId parentId excludeId f &&
      (f.name == baseName ||
        (List.range' 1 (files.filter (inScope projectId parentId excludeId)).length).any
          (fun k => f.name == candidateName baseName k)))

/-! ## Basic lemmas about the store -/

/-- A record returned by `findNode` carries the looked-up id. -/
theorem findNode_id {files : List FNode} {i : String} {f : FNode}
    (h : findNode files i = some f) : f.id = i := by
  have := List.find?_some h
  simpa using this

/-- A record returned by `findNode` belongs to the store. -/
theorem findNode_mem {files : List FNode} {i : String} {f : FNode}
    (h : findNode files i = some f) : f ∈ files :=
  List.mem_of_find?_eq_some h

/-- On a store with distinct ids, looking up a member's id returns it. -/
theorem findNode_self {files : List FNode} (hnd : (files.map FNode.id).Nodup)
    {f : FNode} (hf : f ∈ files) : findNode files f.id = some f := by
  induction files with
  | nil => cases hf
  | cons g t ih =>
    rcases List.mem_cons.mp hf with rfl | hmem
    · simp [findNode]
    · have hgid : g.id ≠ f.id := by
        intro he
        have : g.id ∈ t.map FNode.id := he ▸ List.mem_map_of_mem FNode.id hmem
        exact (List.nodup_cons.mp hnd).1 this
      have ht : (t.map FNode.id).Nodup := (List.nodup_cons.mp hnd).2
      have hne : (g.id == f.id) = false := by simpa using hgid
      rw [findNode, List.find?_cons, hne]
      exact ih ht hmem

/-- On a store with distinct ids, two members with one id coincide. -/
theorem id_unique {files : List FNode} (hnd : (files.map FNode.id).Nodup)
    {f g : FNode} (hf : f ∈ files) (hg : g ∈ files) (hid : f.id = g.id) : f = g := by
  have h1 := findNode_self hnd hf
  have h2 := findNode_self hnd hg
  rw [hid] at h1
  exact Option.some.inj (h1.symm.trans h2)

/-- Store members have the claimed parent id exactly when `childrenOf`
keeps them. -/
theorem mem_childrenOf {files : List FNode} {q : Option String} {c : FNode} :
    c ∈ childrenOf files q ↔ c ∈ files ∧ c.parentId = q := by
  simp [childrenOf, List.mem_filter]

/-- Stores with distinct ids have no duplicate records. -/
theorem nodup_of_idsNodup {files : List FNode} (hnd : (files.map FNode.id).Nodup) :
    files.Nodup :=
  List.Nodup.of_map FNode.id hnd

/-! ## C10: empty or absent input to `buildFileTree` -/

/-- C10: for an empty or absent (null/undefined) input collection,
`buildFileTree` returns the empty forest rather than failing. -/
theorem buildFileTree_empty_inputs :
    buildFileTree none = [] ∧ buildFileTree (some []) = [] :=
  ⟨rfl, rfl⟩

/-! ## C4: termination of the ancestor walk -/

/-- On the cyclic store, the ancestor walk of `isFileDescendant` starting
at either record is still running after any number of steps. -/
theorem cycStore_walk_none :
    ∀ n, isFileDescendant cycStore n "a" "c" = none ∧
      isFileDescendant cycStore n "b" "c" = none := by
  intro n
  induction n with
  | zero => exact ⟨rfl, rfl⟩
  | succ n ih =>
    have ea : findNode cycStore "a" = some ⟨"a", "p", "a", .folder, some "b", 0, none⟩ := rfl
    have eb : findNode cycStore "b" = some ⟨"b", "p", "b", .folder, some "a", 0, none⟩ := rfl
    have hbc : (("b" : String) == "c") = false := rfl
    have hac : (("a" : String) == "c") = false := rfl
    constructor
    · calc isFileDescendant cycStore (n+1) "a" "c"
          = isFileDescendant cycStore n "b" "c" := by
            simp [isFileDescendant, ea, hbc]
      _ = none := ih.2
    · calc isFileDescendant cycStore (n+1) "b" "c"
          = isFileDescendant cycStore n "a" "c" := by
            simp [isFileDescendant, eb, hac]
      _ = none := ih.1

/-- C4 (counterexample): on a malformed store whose parent chain is
cyclic, the recursive walk of `isFileDescendant` never terminates: no
amount of fuel produces a result, refuting the claimed bounded cut-off. -/
theorem isFileDescendant_cyclic_diverges : ¬ IsFdTerminates cycStore "a" "c" := by
  rintro ⟨n, b, hn⟩
  rw [(cycStore_walk_none n).1] at hn
  cases hn

/-- C4 (amended): `isFileDescendant` terminates on every store state in
which the candidate's ancestor chain halts — in particular whenever
invariant I2 holds — needing fuel only up to the chain length plus two;
the source contains no cut-off bound, and on a cyclic chain it does not
terminate. -/
theorem isFileDescendant_terminates_of_halting_chain :
    ∀ (files : List FNode) (d fuel : Nat) (fileId ancestorId : String) (f : FNode),
      findNode files fileId = some f → chainLen files fuel f = some d →
      ∃ b, isFileDescendant files (d + 2) fileId ancestorId = some b := by
  intro files d
  induction d with
  | zero =>
    intro fuel fileId anc f hfind hlen
    rcases hpar : f.parentId with _ | pid
    · exact ⟨false, by simp [isFileDescendant, hfind, hpar]⟩
    · rcases hlook : findNode files pid with _ | p
      · by_cases hanc : (pid == anc) = true
        · exact ⟨true, by simp [isFileDescendant, hfind, hpar, hanc]⟩
        · refine ⟨false, ?_⟩
          have h2 : isFileDescendant files (0 + 2) fileId anc
              = isFileDescendant files 1 pid anc := by
            simp [isFileDescendant, hfind, hpar, hanc]
          rw [h2]
          simp [isFileDescendant, hlook]
      · exfalso
        have hp : par files f = some p := by simp [par, hpar, hlook]
        cases fuel with
        | zero => simp [chainLen, hp] at hlen
        | succ fuel' => simp [chainLen, hp] at hlen
  | succ d ih =>
    intro fuel fileId anc f hfind hlen
    rcases hpar : f.parentId with _ | pid
    · exact ⟨false, by simp [isFileDescendant, hfind, hpar]⟩
    · by_cases hanc : (pid == anc) = true
      · exact ⟨true, by simp [isFileDescendant, hfind, hpar, hanc]⟩
      · rcases hlook : findNode files pid with _ | p
        · exfalso
          have hp : par files f = none := by simp [par, hpar, hlook]
          cases fuel with
          | zero => simp [chainLen, hp] at hlen
          | succ fuel' => simp [chainLen, hp] at hlen
        · have hp : par files f = some p := by simp [par, hpar, hlook]
          cases fuel with
          | zero => exact absurd hlen (by simp [chainLen, hp])
          | succ fuel' =>
            have hlen' : chainLen files fuel' p = some d := by
              simp only [chainLen, hp, Option.map_eq_some'] at hlen
              obtain ⟨d', hd', he⟩ := hlen
              have : d' = d := by omega
              rw [← this]; exact hd'
            obtain ⟨b, hb⟩ := ih fuel' pid anc p hlook hlen'
            refine ⟨b, ?_⟩
            have h2 : isFileDescendant files (d + 1 + 2) fileId anc
                = isFileDescendant files (d + 2) pid anc := by
              simp [isFileDescendant, hfind, hpar, hanc]
            rw [h2]; exact hb

/-- Witness for C4's amended theorem: on the concrete well-formed store,
the ancestor walk from `f3` (chain length 2) terminates within fuel 4. -/
theorem isFileDescendant_terminates_witness :
    ∃ b, isFileDescendant sizeStore 4 "f3" "F" = some b :=
  isFileDescendant_terminates_of_halting_chain sizeStore 2 5 "f3" "F"
    ⟨"f3", "p", "c.txt", .file, some "G", 50, some "k3"⟩ rfl (by decide)

/-! ## C3: the order and coverage of `validateMove` checks -/

/-- C3 (counterexample): with a null `newParentId`, the validator runs no
check at all — here the moved node does not even exist, yet validation
succeeds instead of failing with `NotFound`. -/
theorem validateMove_null_parent_counterexample :
    validateHierarchyOperation [] 5 "missing" none "P" = some (.ok true) ∧
      findNode [] "missing" = none :=
  ⟨rfl, rfl⟩

/-- C3 (amended): `validateHierarchyOperation` checks nothing when
`newParentId` is null; otherwise it checks, in order: (a) the moved node
exists (`File not found`); (c) if the moved node is a folder, the cycle
guard — run before any look at the target, and not rejecting
`newParentId = nodeId` itself; (b) the target must exist as a folder of
the same project: an absent target id, a target belonging to a different
project, and a non-folder target all fail with the same
`New parent folder not found` error; moving a folder into itself passes
validation on an acyclic store. -/
theorem validateMove_check_order :
    (∀ (files : List FNode) (fuel : Nat) (fileId projectId : String),
       validateHierarchyOperation files fuel fileId none projectId = some (.ok true)) ∧
    (∀ (files : List FNode) (fuel : Nat) (fileId npid projectId : String),
       findNode files fileId = none →
       validateHierarchyOperation files fuel fileId (some npid) projectId
         = some (.error "File not found")) ∧
    (∀ (files : List FNode) (fuel : Nat) (fileId npid projectId : String) (f : FNode),
       findNode files fileId = some f → f.type = FType.folder →
       isFileDescendant files fuel npid fileId = some true →
       validateHierarchyOperation files fuel fileId (some npid) projectId
         = some (.error "Cannot move folder into its own descendant")) ∧
    (∀ (files : List FNode) (fuel : Nat) (fileId npid projectId : String) (f tgt : FNode),
       (files.map FNode.id).Nodup →
       findNode files fileId = some f → f.type = FType.file →
       findNode files npid = some tgt → tgt.type = FType.file →
       validateHierarchyOperation files fuel fileId (some npid) projectId
         = some (.error "New parent folder not found")) ∧
    (∀ (files : List FNode) (fuel : Nat) (fileId npid projectId : String) (f : FNode),
       findNode files fileId = some f →
       findNode files npid = none →
       validateHierarchyOperation files (fuel + 1) fileId (some npid) projectId
         = some (.error "New parent folder not found")) ∧
    (∀ (files : List FNode) (fuel : Nat) (fileId npid projectId : String) (f tgt : FNode),
       (files.map FNode.id).Nodup →
       findNode files fileId = some f →
       findNode files npid = some tgt → tgt.projectId ≠ projectId →
       (f.type = FType.folder → isFileDescendant files fuel npid fileId = some false) →
       validateHierarchyOperation files fuel fileId (some npid) projectId
         = some (.error "New parent folder not found")) ∧
    (∀ (files : List FNode) (fuel : Nat) (fileId projectId : String) (f : FNode),
       findNode files fileId = some f → f.type = FType.folder →
       f.projectId = projectId →
       isFileDescendant files fuel fileId fileId = some false →
       validateHierarchyOperation files fuel fileId (some fileId) projectId
         = some (.ok true)) := by
  refine ⟨?_, ?_, ?_, ?_, ?_, ?_, ?_⟩
  · intro files fuel fileId projectId
    rfl
  · intro files fuel fileId npid projectId h
    simp [validateHierarchyOperation, h]
  · intro files fuel fileId npid projectId f hfind htype hdesc
    simp [validateHierarchyOperation, hfind, htype, hdesc]
  · intro files fuel fileId npid projectId f tgt hnd hfind htype htgt htgtty
    have hnone : files.find? (fun p =>
        p.id == npid && p.projectId == projectId && p.type == FType.folder) = none := by
      rw [List.find?_eq_none]
      intro a ha hp
      simp only [Bool.and_eq_true, beq_iff_eq] at hp
      have : a = tgt := id_unique hnd ha (findNode_mem htgt) (by rw [hp.1.1, findNode_id htgt])
      rw [this, htgtty] at hp
      exact absurd hp.2 (by simp)
    simp [validateHierarchyOperation, hfind, htype, hnone]
  · intro files fuel fileId npid projectId f hfind hnpid
    have hdesc : isFileDescendant files (fuel + 1) npid fileId = some false := by
      simp [isFileDescendant, hnpid]
    have hnone : files.find? (fun p =>
        p.id == npid && p.projectId == projectId && p.type == FType.folder) = none := by
      rw [List.find?_eq_none]
      intro a ha hp
      simp only [Bool.and_eq_true, beq_iff_eq] at hp
      have hne := List.find?_eq_none.mp hnpid a ha
      exact hne (beq_iff_eq.mpr hp.1.1)
    by_cases ht : f.type = FType.folder
    · simp [validateHierarchyOperation, hfind, ht, hdesc, hnone]
    · simp [validateHierarchyOperation, hfind, ht, hnone]
  · intro files fuel fileId npid projectId f tgt hnd hfind htgt hproj hdesc
    have hnone : files.find? (fun p =>
        p.id == npid && p.projectId == projectId && p.type == FType.folder) = none := by
      rw [List.find?_eq_none]
      intro a ha hp
      simp only [Bool.and_eq_true, beq_iff_eq] at hp
      have haeq : a = tgt := id_unique hnd ha (findNode_mem htgt)
        (by rw [hp.1.1, findNode_id htgt])
      exact hproj (by rw [← haeq]; exact hp.1.2)
    by_cases ht : f.type = FType.folder
    · simp [validateHierarchyOperation, hfind, ht, hdesc ht, hnone]
    · simp [validateHierarchyOperation, hfind, ht, hnone]
  · intro files fuel fileId projectId f hfind htype hproj hdesc
    have hsome : ∃ p, files.find? (fun p =>
        p.id == fileId && p.projectId == projectId && p.type == FType.folder) = some p := by
      rw [← Option.isSome_iff_exists, List.find?_isSome]
      exact ⟨f, findNode_mem hfind, by simp [findNode_id hfind, hproj, htype]⟩
    obtain ⟨p, hp⟩ := hsome
    simp [validateHierarchyOperation, hfind, htype, hdesc, hp]

/-- Witness for C3's amended theorem: each clause applied on a concrete
store — null parent skips checks, a missing node fails, the cycle guard
fires before the target lookup, a file target, an absent target id, and a
target of another project each yield the not-found error, and a folder may
be moved into itself. -/
theorem validateMove_check_order_witness :
    validateHierarchyOperation [] 0 "x" none "P" = some (.ok true) ∧
    validateHierarchyOperation moveStore 3 "nope" (some "src") "p"
      = some (.error "File not found") ∧
    validateHierarchyOperation moveStore 3 "src" (some "sub") "p"
      = some (.error "Cannot move folder into its own descendant") ∧
    validateHierarchyOperation moveStore 3 "app" (some "app") "p"
      = some (.error "New parent folder not found") ∧
    validateHierarchyOperation moveStore 3 "app" (some "ghost") "p"
      = some (.error "New parent folder not found") ∧
    validateHierarchyOperation moveStore 3 "app" (some "src") "q"
      = some (.error "New parent folder not found") ∧
    validateHierarchyOperation moveStore 3 "src" (some "src") "p" = some (.ok true) :=
  ⟨validateMove_check_order.1 [] 0 "x" "P",
   validateMove_check_order.2.1 moveStore 3 "nope" "src" "p" rfl,
   validateMove_check_order.2.2.1 moveStore 3 "src" "sub" "p"
     ⟨"src", "p", "src", .folder, none, 0, none⟩ rfl rfl (by decide),
   validateMove_check_order.2.2.2.1 moveStore 3 "app" "app" "p"
     ⟨"app", "p", "App.js", .file, none, 10, some "k"⟩
     ⟨"app", "p", "App.js", .file, none, 10, some "k"⟩ (by decide) rfl rfl rfl rfl,
   validateMove_check_order.2.2.2.2.1 moveStore 2 "app" "ghost" "p"
     ⟨"app", "p", "App.js", .file, none, 10, some "k"⟩ rfl rfl,
   validateMove_check_order.2.2.2.2.2.1 moveStore 3 "app" "src" "q"
     ⟨"app", "p", "App.js", .file, none, 10, some "k"⟩
     ⟨"src", "p", "src", .folder, none, 0, none⟩ (by decide) rfl rfl (by decide) (by decide),
   validateMove_check_order.2.2.2.2.2.2 moveStore 3 "src" "p"
     ⟨"src", "p", "src", .folder, none, 0, none⟩ rfl rfl rfl (by decide)⟩

/-! ## C2: classification of duplicate-key errors -/

/-- C2 (counterexample): a duplicate-key store error (code 11000) is
classified retryable, and an operation persistently failing with it is
retried to the attempt cap (3 attempts) instead of being raised after one
attempt. -/
theorem duplicateKey_retried_counterexample :
    isRetryableError (some dupKeyErr) = true ∧
      handlePersistenceOperation true (fun _ => (.error dupKeyErr : Except JsError Nat)) "op"
        defaultRetryOptions = .error (.enriched ⟨"op", 3, true, dupKeyErr, ""⟩) :=
  ⟨by decide, rfl⟩

/-- C2 (amended): the error classifier treats a duplicate-key-class store
error (code 11000) as retryable, not fatal: an operation wrapped with the
default retry options that keeps failing with such an error is retried up
to `maxRetries` attempts, after which the enriched failure is raised with
the retryable flag set. -/
theorem duplicateKey_classified_retryable :
    ∀ (e : JsError), e.code = some 11000 →
      isRetryableError (some e) = true ∧
      ∀ (α : Type) (op : Nat → Except JsError α) (nm ctx : String),
        (∀ k, op k = .error e) →
        handlePersistenceOperation true op nm ⟨3, true, ctx⟩
          = .error (.enriched ⟨nm, 3, true, e, ctx⟩) := by
  intro e hcode
  have hre : isRetryableError (some e) = true := by
    simp only [isRetryableError, hcode]
    split
    · rfl
    · simp
  refine ⟨hre, ?_⟩
  intro α op nm ctx hop
  simp [handlePersistenceOperation, persistGo, attemptResult, hop, hre]

/-- Witness for C2's amended theorem at the concrete duplicate-key
error. -/
theorem duplicateKey_classified_retryable_witness :
    isRetryableError (some dupKeyErr) = true ∧
      handlePersistenceOperation true (fun _ => (.error dupKeyErr : Except JsError Nat)) "w"
        ⟨3, true, "ctx"⟩ = .error (.enriched ⟨"w", 3, true, dupKeyErr, "ctx"⟩) :=
  ⟨(duplicateKey_classified_retryable dupKeyErr rfl).1,
   (duplicateKey_classified_retryable dupKeyErr rfl).2 Nat
     (fun _ => .error dupKeyErr) "w" "ctx" (fun _ => rfl)⟩

/-! ## C5: retry accounting of the persistence wrapper -/

/-- C5: with default options (`maxRetries = 3`), an operation failing
twice with a retryable error and succeeding on the third attempt returns
the success value with `attempts = 3`; an operation failing with a
non-retryable error raises after exactly one attempt, the enriched
failure carrying the attempt count, the retryability flag, the
originating error and the caller-supplied context. -/
theorem withRetry_attempt_accounting :
    (∀ (α : Type) (op : Nat → Except JsError α) (nm ctx : String) (e : JsError) (a : α),
       isRetryableError (some e) = true →
       op 1 = .error e → op 2 = .error e → op 3 = .ok a →
       handlePersistenceOperation true op nm ⟨3, true, ctx⟩ = .ok (a, 3)) ∧
    (∀ (α : Type) (op : Nat → Except JsError α) (nm ctx : String) (e : JsError),
       isRetryableError (some e) = false → op 1 = .error e →
       handlePersistenceOperation true op nm ⟨3, true, ctx⟩
         = .error (.enriched ⟨nm, 1, false, e, ctx⟩)) := by
  constructor
  · intro α op nm ctx e a hre h1 h2 h3
    simp [handlePersistenceOperation, persistGo, attemptResult, h1, h2, h3, hre]
  · intro α op nm ctx e hre h1
    simp [handlePersistenceOperation, persistGo, attemptResult, h1, hre]

/-- Witness for C5: a concrete operation that times out twice then
succeeds returns `(42, 3)`; a concrete fatal error raises after one
attempt. -/
theorem withRetry_attempt_accounting_witness :
    handlePersistenceOperation true
      (fun n => if n ≥ 3 then (.ok 42 : Except JsError Nat) else .error timeoutErr) "op"
      ⟨3, true, "c"⟩ = .ok (42, 3) ∧
    handlePersistenceOperation true (fun _ => (.error fatalErr : Except JsError Nat)) "op"
      ⟨3, true, "c"⟩ = .error (.enriched ⟨"op", 1, false, fatalErr, "c"⟩) :=
  ⟨withRetry_attempt_accounting.1 Nat
     (fun n => if n ≥ 3 then .ok 42 else .error timeoutErr) "op" "c" timeoutErr 42
     (by decide) rfl rfl rfl,
   withRetry_attempt_accounting.2 Nat (fun _ => .error fatalErr) "op" "c" fatalErr
     (by decide) rfl⟩

/-! ## C9: the project-deletion cascade -/

/-- C9 (counterexample): when the blob-store batch delete fails, project
deletion still reports success while the file's blob remains in the blob
store. -/
theorem deleteProject_s3_failure_counterexample :
    (deleteProject delState false "p").1.success = true ∧
      "k" ∈ (deleteProject delState false "p").2.blobs :=
  ⟨rfl, by decide⟩

/-- C9 (amended): after a deletion that reports success, no FileNode with
the deleted project's id remains in the record store; blob deletion is
best-effort — when the blob-store batch delete succeeds, every blob key
recorded on those FileNodes is removed, but a blob-store failure is
swallowed and the deletion still reports success. -/
theorem deleteProject_cascade_behaviour :
    ∀ (st : DBState) (s3Ok : Bool) (reqId : String),
      (deleteProject st s3Ok reqId).1.success = true →
      (∀ f ∈ (deleteProject st s3Ok reqId).2.files, ¬ f.projectId = reqId) ∧
      (s3Ok = true → ∀ f ∈ st.files, f.projectId = reqId →
        ∀ k, f.s3Key = some k → ¬ k = "" → k ∉ (deleteProject st s3Ok reqId).2.blobs) := by
  intro st s3Ok reqId hsucc
  rcases hfind : st.projects.find? (fun p => p.id == reqId) with _ | pr
  · rw [deleteProject, hfind] at hsucc
    cases hsucc
  · constructor
    · intro f hf
      rw [deleteProject, hfind] at hf
      simp only [List.mem_filter, Bool.not_eq_true', beq_eq_false_iff_ne] at hf
      simpa using hf.2
    · intro hs3 f hf hproj k hk hkne hmem
      rw [deleteProject, hfind] at hmem
      simp only [hs3, if_true, List.mem_filter] at hmem
      have hkeys : k ∈ collectS3Keys (st.files.filter (fun f => f.projectId == reqId)) := by
        rw [collectS3Keys, List.mem_filterMap]
        refine ⟨f, ?_, ?_⟩
        · rw [List.mem_filter]
          exact ⟨hf, by simp [hproj]⟩
        · simp [hk, hkne]
      have hcon := List.elem_eq_true_of_mem hkeys
      have := hmem.2
      rw [List.contains, hcon] at this
      cases this

/-- Witness for C9's amended theorem at the concrete state with a
successful blob-store delete. -/
theorem deleteProject_cascade_witness :
    (deleteProject delState true "p").1.success = true ∧
      "k" ∉ (deleteProject delState true "p").2.blobs :=
  ⟨rfl,
   (deleteProject_cascade_behaviour delState true "p" rfl).2 rfl
     ⟨"f1", "p", "a.txt", .file, none, 3, some "k"⟩ (by decide) rfl "k" rfl (by decide)⟩

/-! ## C7: `generateUniqueName` -/

/-- Digit characters decode to their value. -/
theorem digitChar_toNat {n : Nat} (h : n < 10) : (digitChar n).toNat = 48 + n := by
  interval_cases n <;> rfl

/-- `parseVal` peels a trailing digit. -/
theorem parseVal_append (l : List Char) (c : Char) :
    parseVal (l ++ [c]) = parseVal l * 10 + (c.toNat - 48) := by
  simp [parseVal, List.foldl_append]

/-- `parseVal` decodes the rendered digits of `n`. -/
theorem parseVal_natDigitsAux : ∀ (fuel n : Nat), n < fuel →
    parseVal (natDigitsAux fuel n) = n := by
  intro fuel
  induction fuel with
  | zero => intro n h; omega
  | succ fuel ih =>
    intro n h
    by_cases h10 : n < 10
    · rw [natDigitsAux, if_pos h10]
      simp [parseVal, digitChar_toNat h10]
    · rw [natDigitsAux, if_neg h10]
      have hdiv : n / 10 < n := Nat.div_lt_self (by omega) (by omega)
      rw [parseVal_append, ih (n / 10) (by omega), digitChar_toNat (Nat.mod_lt n (by omega))]
      have := Nat.div_add_mod n 10
      omega

/-- The decimal rendering of naturals is injective (character level). -/
theorem natToString_data_inj {m n : Nat}
    (h : (natToString m).data = (natToString n).data) : m = n := by
  have hd : natDigitsAux (m + 1) m = natDigitsAux (n + 1) n := h
  have hm := parseVal_natDigitsAux (m + 1) m (by omega)
  have hn := parseVal_natDigitsAux (n + 1) n (by omega)
  rw [← hm, ← hn, hd]

/-- Rendered digit strings are nonempty. -/
theorem natDigitsAux_ne_nil {fuel n : Nat} (h : n < fuel) : natDigitsAux fuel n ≠ [] := by
  cases fuel with
  | zero => omega
  | succ fuel =>
    rw [natDigitsAux]
    by_cases h10 : n < 10
    · rw [if_pos h10]; simp
    · rw [if_neg h10]; simp

/-- The character data of a candidate name, in flattened form. -/
theorem candidateName_data (b : String) (k : Nat) :
    (candidateName b k).data
      = (nameStem b).data ++ (' ' :: '(' :: (natToString k).data)
          ++ (')' :: (nameExt b).data) := by
  show (nameStem b ++ " (" ++ natToString k ++ ")" ++ nameExt b).data = _
  simp [String.data_append, List.append_assoc]

/-- The candidate counter is recoverable: candidate names with one base
are injective in the counter. -/
theorem candidateName_inj {b : String} {i j : Nat}
    (h : candidateName b i = candidateName b j) : i = j := by
  have hd := congrArg String.data h
  rw [candidateName_data, candidateName_data] at hd
  have h1 := List.append_cancel_right hd
  have h2 := List.append_cancel_left h1
  simp only [List.cons.injEq, true_and] at h2
  exact natToString_data_inj h2

/-- If `l` contains `'.'`, its dot-free prefix is strictly shorter. -/
theorem takeWhile_lt_of_contains : ∀ (l : List Char), '.' ∈ l →
    (l.takeWhile (fun c => c ≠ '.')).length < l.length := by
  intro l
  induction l with
  | nil => intro h; cases h
  | cons c t ih =>
    intro h
    rw [List.takeWhile_cons]
    by_cases hc : c = '.'
    · subst hc
      simp
    · have hmem : '.' ∈ t := by
        rcases List.mem_cons.mp h with h' | h'
        · exact absurd h'.symm hc
        · exact h'
      have := ih hmem
      simp [hc] at this ⊢
      omega

/-- Stem and extension together have the base name's length. -/
theorem stem_ext_length (b : String) :
    (nameStem b).data.length + (nameExt b).data.length = b.data.length := by
  by_cases hdot : b.data.contains '.'
  · have hmem : '.' ∈ b.data := by simpa using hdot
    have hrev : '.' ∈ b.data.reverse := by simpa using hmem
    have hlt := takeWhile_lt_of_contains b.data.reverse hrev
    rw [List.length_reverse] at hlt
    rw [nameStem, nameExt, if_pos hdot, if_pos hdot]
    simp only [List.length_take, List.length_cons, List.length_reverse]
    omega
  · rw [nameStem, nameExt, if_neg hdot, if_neg hdot]
    rfl

/-- A candidate name is strictly longer than the base name, hence never
equal to it. -/
theorem candidateName_ne_base (b : String) (k : Nat) : candidateName b k ≠ b := by
  intro h
  have hd := congrArg (fun s => s.data.length) h
  simp only [candidateName_data] at hd
  have hlen : 1 ≤ (natToString k).data.length := by
    have hne := @natDigitsAux_ne_nil (k + 1) k (by omega)
    have he : (natToString k).data = natDigitsAux (k + 1) k := rfl
    rw [he]
    rcases hx : natDigitsAux (k + 1) k with _ | ⟨c, t⟩
    · exact absurd hx hne
    · simp
  have := stem_ext_length b
  simp only [List.length_append, List.length_cons] at hd
  omega

/-- A successful conflict check names a sibling in scope. -/
theorem conflict_exists {files : List FNode} {pid name : String}
    {parentId excl : Option String}
    (h : checkNamingConflict files pid name parentId excl = true) :
    ∃ f ∈ files, inScope pid parentId excl f = true ∧ f.name = name := by
  rw [checkNamingConflict, Option.isSome_iff_exists] at h
  obtain ⟨f, hf⟩ := h
  have hmem := List.mem_of_find?_eq_some hf
  have hp := List.find?_some hf
  simp only [Bool.and_eq_true, beq_iff_eq] at hp
  refine ⟨f, hmem, ?_, hp.1.1.2⟩
  rw [inScope.eq_def]
  simp only [Bool.and_eq_true, beq_iff_eq]
  exact ⟨⟨hp.1.1.1, hp.1.2⟩, hp.2⟩

/-- Soundness of the unique-name loop: a produced name is conflict-free
and is the start name or a candidate whose earlier candidates (from the
start counter on) all conflicted, the start name conflicting too. -/
theorem genUniqueAux_sound (files : List FNode) (pid : String)
    (parentId excl : Option String) (base : String) :
    ∀ (fuel counter : Nat) (name res : String),
      genUniqueAux files pid parentId excl base name counter fuel = some res →
      checkNamingConflict files pid res parentId excl = false ∧
      (res = name ∨
        (checkNamingConflict files pid name parentId excl = true ∧
          ∃ k, counter ≤ k ∧ res = candidateName base k ∧
            ∀ m, counter ≤ m → m < k →
              checkNamingConflict files pid (candidateName base m) parentId excl = true)) := by
  intro fuel
  induction fuel with
  | zero =>
    intro counter name res h
    rw [genUniqueAux] at h
    by_cases hc : checkNamingConflict files pid name parentId excl = true
    · rw [if_pos hc] at h; cases h
    · rw [if_neg hc] at h
      cases h
      exact ⟨by simpa using hc, Or.inl rfl⟩
  | succ fuel ih =>
    intro counter name res h
    rw [genUniqueAux] at h
    by_cases hc : checkNamingConflict files pid name parentId excl = true
    · rw [if_pos hc] at h
      obtain ⟨hres, hcase⟩ := ih (counter + 1) (candidateName base counter) res h
      refine ⟨hres, Or.inr ⟨hc, ?_⟩⟩
      rcases hcase with rfl | ⟨hc', k, hk, hkres, hmin⟩
      · exact ⟨counter, le_refl _, rfl, fun m h1 h2 => absurd h2 (by omega)⟩
      · refine ⟨k, by omega, hkres, ?_⟩
        intro m h1 h2
        rcases Nat.eq_or_lt_of_le h1 with rfl | h1'
        · exact hc'
        · exact hmin m (by omega) h2
    · rw [if_neg hc] at h
      cases h
      exact ⟨by simpa using hc, Or.inl rfl⟩

/-- A failed (fuel-exhausted) run of the unique-name loop means the start
name and the first `fuel` candidates from the start counter all
conflicted. -/
theorem genUniqueAux_none (files : List FNode) (pid : String)
    (parentId excl : Option String) (base : String) :
    ∀ (fuel counter : Nat) (name : String),
      genUniqueAux files pid parentId excl base name counter fuel = none →
      checkNamingConflict files pid name parentId excl = true ∧
      ∀ i, i < fuel →
        checkNamingConflict files pid (candidateName base (counter + i)) parentId excl = true := by
  intro fuel
  induction fuel with
  | zero =>
    intro counter name h
    rw [genUniqueAux] at h
    by_cases hc : checkNamingConflict files pid name parentId excl = true
    · exact ⟨hc, fun i hi => absurd hi (by omega)⟩
    · rw [if_neg hc] at h; cases h
  | succ fuel ih =>
    intro counter name h
    rw [genUniqueAux] at h
    by_cases hc : checkNamingConflict files pid name parentId excl = true
    · rw [if_pos hc] at h
      obtain ⟨hc', hrest⟩ := ih (counter + 1) (candidateName base counter) h
      refine ⟨hc, ?_⟩
      intro i hi
      cases i with
      | zero => simpa using hc'
      | succ i =>
        have := hrest i (by omega)
        have he : counter + 1 + i = counter + (i + 1) := by omega
        rwa [he] at this
    · rw [if_neg hc] at h; cases h

/-- The conflicting-sibling count bounds the in-scope sibling count. -/
theorem conflictingSiblings_le (files : List FNode) (pid : String)
    (parentId excl : Option String) (base : String) :
    (conflictingSiblings files pid parentId excl base).length
      ≤ (files.filter (inScope pid parentId excl)).length := by
  rw [conflictingSiblings, ← List.countP_eq_length_filter, ← List.countP_eq_length_filter]
  exact List.countP_mono_left (fun f _ h => by
    simp only [Bool.and_eq_true] at h
    exact h.1)

/-- Pigeonhole: with `N` pre-existing conflicting siblings, the loop
terminates given `N` retries (at most `N + 1` conflict checks). -/
theorem generateUniqueName_terminates (files : List FNode) (pid base : String)
    (parentId excl : Option String) :
    ∃ res, generateUniqueName files pid base parentId excl
      (conflictingSiblings files pid parentId excl base).length = some res := by
  set N := (conflictingSiblings files pid parentId excl base).length with hN
  rcases hrun : generateUniqueName files pid base parentId excl N with _ | res
  swap
  · exact ⟨res, rfl⟩
  exfalso
  rw [generateUniqueName] at hrun
  obtain ⟨hbase, hcands⟩ := genUniqueAux_none files pid parentId excl base N 1 base hrun
  -- the `N + 1` distinct probed names
  set L : List String := base :: (List.range' 1 N).map (candidateName base) with hL
  have hnodupL : L.Nodup := by
    rw [hL, List.nodup_cons]
    constructor
    · intro hmem
      obtain ⟨k, _, hk⟩ := List.mem_map.mp hmem
      exact candidateName_ne_base base k hk
    · exact List.Nodup.map (fun i j h => candidateName_inj h) (List.nodup_range' 1 N)
  have hsub : ∀ s ∈ L, s ∈ (conflictingSiblings files pid parentId excl base).map FNode.name := by
    intro s hs
    have hexists : ∃ f ∈ files, inScope pid parentId excl f = true ∧ f.name = s ∧
        (f.name == base ||
          (List.range' 1 (files.filter (inScope pid parentId excl)).length).any
            (fun k => f.name == candidateName base k)) = true := by
      rcases List.mem_cons.mp hs with rfl | hs'
      · obtain ⟨f, hf, hscope, hname⟩ := conflict_exists hbase
        exact ⟨f, hf, hscope, hname, by simp [hname]⟩
      · obtain ⟨k, hkmem, rfl⟩ := List.mem_map.mp hs'
        have hk1 : 1 ≤ k ∧ k < 1 + N := by
          have := List.mem_range'_1.mp hkmem
          omega
        have hconf := hcands (k - 1) (by omega)
        have hco : checkNamingConflict files pid (candidateName base k) parentId excl = true := by
          have he : 1 + (k - 1) = k := by omega
          rwa [he] at hconf
        obtain ⟨f, hf, hscope, hname⟩ := conflict_exists hco
        refine ⟨f, hf, hscope, hname, ?_⟩
        have hNS := conflictingSiblings_le files pid parentId excl base
        rw [← hN] at hNS
        have hany : (List.range' 1 (files.filter (inScope pid parentId excl)).length).any
            (fun k' => f.name == candidateName base k') = true := by
          rw [List.any_eq_true]
          refine ⟨k, ?_, by simp [hname]⟩
          rw [List.mem_range'_1]
          omega
        simp [hany]
    obtain ⟨f, hf, hscope, hname, hcond⟩ := hexists
    rw [List.mem_map]
    refine ⟨f, ?_, hname⟩
    rw [conflictingSiblings, List.mem_filter]
    exact ⟨hf, by rw [Bool.and_eq_true]; exact ⟨hscope, hcond⟩⟩
  -- cardinality contradiction: N + 1 distinct names in an N-element list
  have hcard : L.length ≤ ((conflictingSiblings files pid parentId excl base).map FNode.name).length := by
    calc L.length = L.toFinset.card := (List.toFinset_card_of_nodup hnodupL).symm
    _ ≤ ((conflictingSiblings files pid parentId excl base).map FNode.name).toFinset.card := by
        apply Finset.card_le_card
        intro s hsmem
        rw [List.mem_toFinset] at hsmem
        rw [List.mem_toFinset]
        exact hsub s hsmem
    _ ≤ ((conflictingSiblings files pid parentId excl base).map FNode.name).length :=
        List.toFinset_card_le _
  rw [hL] at hcard
  simp only [List.length_cons, List.length_map, List.length_range'] at hcard
  rw [← hN] at hcard
  omega

/-- C7: `generateUniqueName` returns the base name when no sibling
conflict exists; otherwise it returns `"{stem} ({n}){extension}"` — stem
and extension splitting the base name at its last `.`, with no extension
suffix when there is no `.` (by definition of `nameStem`/`nameExt`) — for
the smallest conflict-free `n ≥ 1`; and with `N` pre-existing conflicting
siblings it terminates within `N + 1` conflict checks (`N` retries of the
loop). -/
theorem generateUniqueName_spec :
    ∀ (files : List FNode) (pid base : String) (parentId excl : Option String),
      (checkNamingConflict files pid base parentId excl = false →
        ∀ fuel, generateUniqueName files pid base parentId excl fuel = some base) ∧
      (∀ fuel res, generateUniqueName files pid base parentId excl fuel = some res →
        checkNamingConflict files pid res parentId excl = false ∧
        (res = base ∨
          (checkNamingConflict files pid base parentId excl = true ∧
            ∃ n, 1 ≤ n ∧ res = candidateName base n ∧
              ∀ m, 1 ≤ m → m < n →
                checkNamingConflict files pid (candidateName base m) parentId excl = true))) ∧
      (∃ res, generateUniqueName files pid base parentId excl
        (conflictingSiblings files pid parentId excl base).length = some res) := by
  intro files pid base parentId excl
  refine ⟨?_, ?_, generateUniqueName_terminates files pid base parentId excl⟩
  · intro hnc fuel
    cases fuel with
    | zero => rw [generateUniqueName, genUniqueAux, if_neg (by simp [hnc])]
    | succ fuel => rw [generateUniqueName, genUniqueAux, if_neg (by simp [hnc])]
  · intro fuel res h
    exact genUniqueAux_sound files pid parentId excl base fuel 1 base res h

/-- Witness for C7 at concrete stores: on an empty store the base name is
returned unchanged; on the store holding `App.js` and `App (1).js` the
produced name `App (2).js` is conflict-free. -/
theorem generateUniqueName_spec_witness :
    generateUniqueName [] "p" "X" none none 0 = some "X" ∧
      checkNamingConflict nameStore "p" "App (2).js" none none = false :=
  ⟨(generateUniqueName_spec [] "p" "X" none none).1 (by decide) 0,
   ((generateUniqueName_spec nameStore "p" "App.js" none none).2.1 2 "App (2).js"
     (by decide)).1⟩

/-! ## Ancestor-chain lemmas -/

/-- A record resolved by `par` belongs to the store. -/
theorem par_mem {files : List FNode} {f p : FNode} (h : par files f = some p) :
    p ∈ files := by
  rw [par] at h
  rcases hp : f.parentId with _ | pid
  · rw [hp] at h; cases h
  · rw [hp] at h
    exact findNode_mem h

/-- A chain stops within its measuring fuel. -/
theorem chainLen_le_fuel {files : List FNode} :
    ∀ {fuel : Nat} {f : FNode} {d : Nat}, chainLen files fuel f = some d → d ≤ fuel := by
  intro fuel
  induction fuel with
  | zero =>
    intro f d h
    rw [chainLen] at h
    rcases hp : par files f with _ | p <;> rw [hp] at h
    · cases h; omega
    · cases h
  | succ fuel ih =>
    intro f d h
    rw [chainLen] at h
    rcases hp : par files f with _ | p <;> rw [hp] at h
    · cases h; omega
    · rw [Option.map_eq_some'] at h
      obtain ⟨d', hd', rfl⟩ := h
      have := ih hd'
      omega

/-- A chain of length 0 has no resolved parent. -/
theorem chainLen_zero_par {files : List FNode} {fuel : Nat} {f : FNode}
    (h : chainLen files fuel f = some 0) : par files f = none := by
  rcases hp : par files f with _ | p
  · rfl
  · exfalso
    cases fuel with
    | zero =>
      rw [chainLen, hp] at h
      exact Option.noConfusion h
    | succ fuel =>
      rw [chainLen, hp] at h
      have h' : Option.map (· + 1) (chainLen files fuel p) = some 0 := h
      rw [Option.map_eq_some'] at h'
      obtain ⟨d', _, he⟩ := h'
      omega

/-- A positive chain length peels into a parent step. -/
theorem chainLen_succ_par {files : List FNode} {fuel : Nat} {f : FNode} {d : Nat}
    (h : chainLen files fuel f = some (d + 1)) :
    ∃ fuel' p, fuel = fuel' + 1 ∧ par files f = some p ∧ chainLen files fuel' p = some d := by
  rcases hp : par files f with _ | p
  · exfalso
    cases fuel with
    | zero =>
      rw [chainLen, hp] at h
      have h' : (0 : Nat) = d + 1 := Option.some.inj h
      omega
    | succ fuel =>
      rw [chainLen, hp] at h
      have h' : (0 : Nat) = d + 1 := Option.some.inj h
      omega
  · cases fuel with
    | zero =>
      rw [chainLen, hp] at h
      exact Option.noConfusion h
    | succ fuel =>
      rw [chainLen, hp] at h
      have h' : Option.map (· + 1) (chainLen files fuel p) = some (d + 1) := h
      rw [Option.map_eq_some'] at h'
      obtain ⟨d', hd', he⟩ := h'
      have : d' = d := by omega
      exact ⟨fuel, p, rfl, rfl, this ▸ hd'⟩

/-- A measured chain length is independent of the fuel, once sufficient. -/
theorem chainLen_any_fuel {files : List FNode} :
    ∀ {d : Nat} {f : FNode} {fuel : Nat}, chainLen files fuel f = some d →
      ∀ m, d ≤ m → chainLen files m f = some d := by
  intro d
  induction d with
  | zero =>
    intro f fuel h m _
    have hp := chainLen_zero_par h
    cases m with
    | zero => rw [chainLen, hp]
    | succ m => rw [chainLen, hp]
  | succ d ih =>
    intro f fuel h m hm
    obtain ⟨fuel', p, rfl, hp, hlen⟩ := chainLen_succ_par h
    cases m with
    | zero => omega
    | succ m =>
      rw [chainLen, hp]
      show Option.map (· + 1) (chainLen files m p) = some (d + 1)
      rw [ih hlen m (by omega)]
      rfl

/-- The chain index steps by resolving one more parent at the end. -/
theorem chainIdx_succ {files : List FNode} :
    ∀ (k : Nat) (f : FNode),
      chainIdx files (k + 1) f = (chainIdx files k f).bind (par files) := by
  intro k
  induction k with
  | zero =>
    intro f
    show (match par files f with
          | none => none
          | some p => chainIdx files 0 p) = (some f).bind (par files)
    rw [Option.some_bind]
    rcases hp : par files f with _ | p <;> rfl
  | succ k ih =>
    intro f
    show (match par files f with
          | none => none
          | some p => chainIdx files (k + 1) p)
        = (chainIdx files (k + 1) f).bind (par files)
    rcases hp : par files f with _ | p
    · have h2 : chainIdx files (k + 1) f = none := by
        show (match par files f with
              | none => none
              | some p => chainIdx files k p) = none
        rw [hp]
      rw [h2]
      rfl
    · have h2 : chainIdx files (k + 1) f = chainIdx files k p := by
        show (match par files f with
              | none => none
              | some p => chainIdx files k p) = chainIdx files k p
        rw [hp]
      rw [h2]
      show chainIdx files (k + 1) p = (chainIdx files k p).bind (par files)
      exact ih p

/-- A stopped chain index stays stopped. -/
theorem chainIdx_none_mono {files : List FNode} {k : Nat} {f : FNode}
    (h : chainIdx files k f = none) : ∀ m, k ≤ m → chainIdx files m f = none := by
  intro m hm
  obtain ⟨j, rfl⟩ : ∃ j, m = k + j := ⟨m - k, by omega⟩
  clear hm
  induction j with
  | zero => exact h
  | succ j ih =>
    rw [show k + (j + 1) = (k + j) + 1 by omega, chainIdx_succ, ih]
    rfl

/-- Walking `j ≤ d` steps along a chain of length `d` reaches a record
whose remaining chain has length `d - j`. -/
theorem chain_walk {files : List FNode} :
    ∀ (j d : Nat) (f : FNode) (fuel : Nat), chainLen files fuel f = some d → j ≤ d →
      ∃ y, chainIdx files j f = some y ∧ chainLen files d y = some (d - j) := by
  intro j
  induction j with
  | zero =>
    intro d f fuel h _
    exact ⟨f, rfl, by simpa using chainLen_any_fuel h d (le_refl d)⟩
  | succ j ih =>
    intro d f fuel h hj
    obtain ⟨d₀, rfl⟩ : ∃ d₀, d = d₀ + 1 := ⟨d - 1, by omega⟩
    obtain ⟨fuel', p, rfl, hp, hlen⟩ := chainLen_succ_par h
    obtain ⟨y, hy, hylen⟩ := ih d₀ p fuel' hlen (by omega)
    refine ⟨y, ?_, ?_⟩
    · rw [chainIdx, hp]
      exact hy
    · have he : d₀ + 1 - (j + 1) = d₀ - j := by omega
      rw [he]
      exact chainLen_any_fuel hylen (d₀ + 1) (by omega)

/-- Past the end of a measured chain, the index is `none`. -/
theorem chainIdx_past {files : List FNode} {fuel : Nat} {f : FNode} {d : Nat}
    (h : chainLen files fuel f = some d) : ∀ j, d < j → chainIdx files j f = none := by
  have hend : chainIdx files (d + 1) f = none := by
    obtain ⟨y, hy, hylen⟩ := chain_walk d d f fuel h (le_refl d)
    rw [chainIdx_succ, hy]
    show par files y = none
    exact chainLen_zero_par (by simpa using hylen)
  intro j hj
  exact chainIdx_none_mono hend j (by omega)

/-- A measured chain has a defined index exactly up to its length. -/
theorem chainIdx_isSome_iff {files : List FNode} {fuel : Nat} {f : FNode} {d : Nat}
    (h : chainLen files fuel f = some d) (j : Nat) :
    (chainIdx files j f).isSome ↔ j ≤ d := by
  constructor
  · intro hs
    by_contra hle
    rw [chainIdx_past h j (by omega)] at hs
    cases hs
  · intro hle
    obtain ⟨y, hy, _⟩ := chain_walk j d f fuel h hle
    rw [hy]
    rfl

/-- Along a terminating chain, positions are recoverable from the record:
the walk never revisits a record. -/
theorem chainIdx_inj {files : List FNode} {fuel : Nat} {f : FNode} {d : Nat}
    (h : chainLen files fuel f = some d) {i j : Nat} {y : FNode}
    (hi : chainIdx files i f = some y) (hj : chainIdx files j f = some y) : i = j := by
  have hid : i ≤ d := (chainIdx_isSome_iff h i).mp (by rw [hi]; rfl)
  have hjd : j ≤ d := (chainIdx_isSome_iff h j).mp (by rw [hj]; rfl)
  obtain ⟨y₁, hy₁, hl₁⟩ := chain_walk i d f fuel h hid
  obtain ⟨y₂, hy₂, hl₂⟩ := chain_walk j d f fuel h hjd
  rw [hi] at hy₁
  rw [hj] at hy₂
  cases hy₁
  cases hy₂
  rw [hl₁] at hl₂
  have := Option.some.inj hl₂
  omega

/-- Positive chain positions are store members. -/
theorem chainIdx_mem {files : List FNode} {k : Nat} {f y : FNode}
    (h : chainIdx files (k + 1) f = some y) : y ∈ files := by
  rw [chainIdx_succ] at h
  rcases hz : chainIdx files k f with _ | z <;> rw [hz] at h
  · cases h
  · exact par_mem h

/-- A member's terminating chain is shorter than the store: the walk
visits pairwise distinct store members. -/
theorem chainLen_bound {files : List FNode} {fuel : Nat} {f : FNode} {d : Nat}
    (hf : f ∈ files) (h : chainLen files fuel f = some d) : d + 1 ≤ files.length := by
  classical
  have hφ : ∀ j : Fin (d + 1), ∃ y, chainIdx files j.val f = some y := by
    intro j
    have := (chainIdx_isSome_iff h j.val).mpr (by omega)
    rcases hy : chainIdx files j.val f with _ | y
    · rw [hy] at this; cases this
    · exact ⟨y, rfl⟩
  set φ : Fin (d + 1) → FNode := fun j => (chainIdx files j.val f).getD f with hφdef
  have hmem : ∀ j : Fin (d + 1), φ j ∈ files := by
    intro j
    obtain ⟨y, hy⟩ := hφ j
    rcases hj : j.val with _ | k
    · rw [hφdef]
      simp only [hj]
      rw [show chainIdx files 0 f = some f from rfl]
      simpa using hf
    · rw [hφdef]
      simp only [hj]
      rw [hj] at hy
      rw [hy]
      simpa using chainIdx_mem hy
  have hinj : ∀ a : Fin (d + 1), ∀ b : Fin (d + 1), φ a = φ b → a = b := by
    intro a b hab
    obtain ⟨ya, hya⟩ := hφ a
    obtain ⟨yb, hyb⟩ := hφ b
    rw [hφdef] at hab
    simp only [hya, hyb, Option.getD_some] at hab
    subst hab
    exact Fin.ext (chainIdx_inj h hya hyb)
  have hcard : (Finset.univ : Finset (Fin (d + 1))).card ≤ files.toFinset.card := by
    apply Finset.card_le_card_of_injOn φ
    · intro a _
      rw [List.mem_toFinset]
      exact hmem a
    · intro a _ b _ hab
      exact hinj a b hab
  have h1 : (Finset.univ : Finset (Fin (d + 1))).card = d + 1 := by simp
  have h2 := List.toFinset_card_le files
  omega

/-! ## The chain form of gated reachability -/

/-- One parent step of the chain index, given a resolved parent. -/
theorem chainIdx_step {files : List FNode} {x p : FNode} (hp : par files x = some p) :
    ∀ m, chainIdx files (m + 1) x = chainIdx files m p := by
  intro m
  show (match par files x with
        | none => none
        | some p' => chainIdx files m p') = chainIdx files m p
  rw [hp]

/-- `descD` holds exactly when some chain element hits the query, the
records above the start being gated. -/
theorem descD_iff (files : List FNode) (gate : FNode → Bool) :
    ∀ (k : Nat) (x : FNode) (q : Option String),
      descD files gate k x q = true ↔ ChainHit files gate k x q := by
  intro k
  induction k with
  | zero =>
    intro x q
    constructor
    · intro h
      rw [show descD files gate 0 x q = false from rfl] at h
      cases h
    · rintro ⟨j, hj, _⟩
      omega
  | succ k ih =>
    intro x q
    have hunfold : descD files gate (k + 1) x q
        = ((x.parentId == q) ||
            (match par files x with
             | none => false
             | some p => gate p && descD files gate k p q)) := rfl
    constructor
    · intro h
      rw [hunfold, Bool.or_eq_true] at h
      rcases h with hdir | hrest
      · exact ⟨0, by omega, x, rfl, by simpa using hdir, fun i h1 h2 => by omega⟩
      · rcases hp : par files x with _ | p
        · rw [hp] at hrest
          cases hrest
        · rw [hp] at hrest
          rw [Bool.and_eq_true] at hrest
          obtain ⟨hg, hdp⟩ := hrest
          obtain ⟨j, hj, y, hyidx, hypar, hgates⟩ := (ih p q).mp hdp
          refine ⟨j + 1, by omega, y, ?_, hypar, ?_⟩
          · rw [chainIdx_step hp j]
            exact hyidx
          · intro i h1 h2
            cases i with
            | zero => omega
            | succ i =>
              rcases Nat.eq_zero_or_pos i with rfl | hpos
              · exact ⟨p, by rw [chainIdx_step hp 0]; rfl, hg⟩
              · obtain ⟨z, hz, hgz⟩ := hgates i (by omega) (by omega)
                exact ⟨z, by rw [chainIdx_step hp i]; exact hz, hgz⟩
    · rintro ⟨j, hj, y, hyidx, hypar, hgates⟩
      cases j with
      | zero =>
        have hxy : y = x := Option.some.inj hyidx.symm
        subst hxy
        rw [hunfold, Bool.or_eq_true]
        left
        simpa using hypar
      | succ j₀ =>
        rcases hp : par files x with _ | p
        · exfalso
          have hnone : chainIdx files (j₀ + 1) x = none := by
            show (match par files x with
                  | none => none
                  | some p' => chainIdx files j₀ p') = none
            rw [hp]
          rw [hnone] at hyidx
          cases hyidx
        · have hyidx' : chainIdx files j₀ p = some y := by
            rw [← chainIdx_step hp j₀]
            exact hyidx
          have hgp : gate p = true := by
            obtain ⟨z, hz, hgz⟩ := hgates 1 (le_refl 1) (by omega)
            rw [chainIdx_step hp 0] at hz
            have : p = z := Option.some.inj hz
            rw [this]
            exact hgz
          have hdp : descD files gate k p q = true := by
            rw [ih p q]
            refine ⟨j₀, by omega, y, hyidx', hypar, ?_⟩
            intro i h1 h2
            obtain ⟨z, hz, hgz⟩ := hgates (i + 1) (by omega) (by omega)
            rw [chainIdx_step hp i] at hz
            exact ⟨z, hz, hgz⟩
          rw [hunfold, Bool.or_eq_true]
          right
          show (match par files x with
                | none => false
                | some p' => gate p' && descD files gate k p' q) = true
          rw [hp]
          show (gate p && descD files gate k p q) = true
          rw [Bool.and_eq_true]
          exact ⟨hgp, hdp⟩

/-- From a chain element whose `parentId` is a store member's id, the next
chain element is that member. -/
theorem chain_step_of_hit {files : List FNode} (hnd : (files.map FNode.id).Nodup)
    {x y c : FNode} {j : Nat} (hc : c ∈ files)
    (hyidx : chainIdx files j x = some y) (hypar : y.parentId = some c.id) :
    chainIdx files (j + 1) x = some c := by
  rw [chainIdx_succ, hyidx, Option.some_bind, par, hypar, Option.some_bind,
    findNode_self hnd hc]

/-- A terminating chain meets a given query at most once: two chain
elements whose `parentId` is the query coincide (at one position). -/
theorem hit_unique {files : List FNode} {fuel : Nat} {x : FNode} {d : Nat}
    (hd : chainLen files fuel x = some d) {q : Option String}
    {j₁ j₂ : Nat} {c₁ c₂ : FNode}
    (h₁ : chainIdx files j₁ x = some c₁) (h₂ : chainIdx files j₂ x = some c₂)
    (hp₁ : c₁.parentId = q) (hp₂ : c₂.parentId = q) : j₁ = j₂ ∧ c₁ = c₂ := by
  have e₁ : chainIdx files (j₁ + 1) x = q.bind (findNode files) := by
    rw [chainIdx_succ, h₁, Option.some_bind, par, hp₁]
  have e₂ : chainIdx files (j₂ + 1) x = q.bind (findNode files) := by
    rw [chainIdx_succ, h₂, Option.some_bind, par, hp₂]
  have hj : j₁ = j₂ := by
    rcases hv : q.bind (findNode files) with _ | P
    · rw [hv] at e₁ e₂
      have d₁ : j₁ ≤ d := (chainIdx_isSome_iff hd j₁).mp (by rw [h₁]; rfl)
      have d₂ : j₂ ≤ d := (chainIdx_isSome_iff hd j₂).mp (by rw [h₂]; rfl)
      have n₁ : ¬ (j₁ + 1 ≤ d) := by
        intro hle
        have := (chainIdx_isSome_iff hd (j₁ + 1)).mpr hle
        rw [e₁] at this
        cases this
      have n₂ : ¬ (j₂ + 1 ≤ d) := by
        intro hle
        have := (chainIdx_isSome_iff hd (j₂ + 1)).mpr hle
        rw [e₂] at this
        cases this
      omega
    · rw [hv] at e₁ e₂
      exact Nat.succ.inj (chainIdx_inj hd e₁ e₂)
  refine ⟨hj, ?_⟩
  rw [hj] at h₁
  exact Option.some.inj (h₁.symm.trans h₂)

/-! ## Counting helpers -/

/-- A sum of indicator values is a `countP`. -/
theorem sum_map_ite_countP {α : Type} (p : α → Bool) (l : List α) :
    (l.map (fun c => if p c = true then 1 else 0)).sum = l.countP p := by
  induction l with
  | nil => rfl
  | cons a t ih =>
    rw [List.map_cons, List.sum_cons, List.countP_cons, ih]
    by_cases hpa : p a = true
    · simp [hpa]
      omega
    · simp [hpa]

/-- A predicate holding exactly at one designated record counts as that
record does. -/
theorem countP_eq_count_single {l : List FNode} {p : FNode → Bool} {c₀ : FNode}
    (h : ∀ c ∈ l, (p c = true ↔ c = c₀)) : l.countP p = l.count c₀ := by
  induction l with
  | nil => rfl
  | cons a t ih =>
    rw [List.countP_cons, List.count_cons, ih (fun c hc => h c (List.mem_cons_of_mem a hc))]
    have ha := h a (List.mem_cons_self a t)
    by_cases hpa : p a = true
    · have he : (a == c₀) = true := by simp [ha.mp hpa]
      rw [if_pos hpa, if_pos he]
    · have hne : ¬ (a == c₀) = true := by
        simp only [beq_iff_eq]
        exact fun he => hpa (ha.mpr he)
      rw [if_neg hpa, if_neg hne]

/-- Everything the collector emits is a store record. -/
theorem mem_collectG {files : List FNode} {gate : FNode → Bool} :
    ∀ {fuel : Nat} {q : Option String} {y : FNode},
      y ∈ collectG files gate fuel q → y ∈ files := by
  intro fuel
  induction fuel with
  | zero =>
    intro q y h
    rw [show collectG files gate 0 q = [] from rfl] at h
    cases h
  | succ fuel ih =>
    intro q y h
    rw [show collectG files gate (fuel + 1) q
        = (childrenOf files q).flatMap
            (fun c => c :: (if gate c then collectG files gate fuel (some c.id) else []))
      from rfl, List.mem_flatMap] at h
    obtain ⟨c, hc, hyc⟩ := h
    rcases List.mem_cons.mp hyc with rfl | hrest
    · exact (mem_childrenOf.mp hc).1
    · by_cases hg : gate c = true
      · rw [if_pos hg] at hrest
        exact ih hrest
      · rw [if_neg hg] at hrest
        cases hrest

/-! ## The master counting lemma for the collector -/

/-- On a store with distinct ids, the collector emits each record `x`
(whose chain terminates) exactly once if `x` is gated-reachable from the
query, and not at all otherwise. -/
theorem count_collectG (files : List FNode) (gate : FNode → Bool)
    (hnd : (files.map FNode.id).Nodup) (x : FNode)
    (hx : x ∈ files → ∃ d, chainLen files files.length x = some d) :
    ∀ (fuel : Nat) (q : Option String),
      (collectG files gate fuel q).count x
        = if x ∈ files ∧ descD files gate fuel x q = true then 1 else 0 := by
  intro fuel
  induction fuel with
  | zero =>
    intro q
    rw [show collectG files gate 0 q = [] from rfl,
      show descD files gate 0 x q = false from rfl]
    simp
  | succ fuel ih =>
    intro q
    by_cases hmem : x ∈ files
    swap
    · rw [List.count_eq_zero_of_not_mem (fun hc => hmem (mem_collectG hc))]
      simp [hmem]
    obtain ⟨d, hd⟩ := hx hmem
    have hchildnd : (childrenOf files q).Nodup :=
      List.Nodup.filter _ (nodup_of_idsNodup hnd)
    rw [show collectG files gate (fuel + 1) q
        = (childrenOf files q).flatMap
            (fun c => c :: (if gate c then collectG files gate fuel (some c.id) else []))
      from rfl, List.count_flatMap]
    have hptwise : ∀ c ∈ childrenOf files q,
        (List.count x ∘ fun c =>
            c :: (if gate c then collectG files gate fuel (some c.id) else [])) c
          = (fun c => (if (c == x) = true then 1 else 0)
              + (if (gate c && descD files gate fuel x (some c.id)) = true
                  then 1 else 0)) c := by
      intro c _
      show List.count x (c :: _) = _
      rw [List.count_cons]
      by_cases hg : gate c = true
      · rw [if_pos hg, ih (some c.id)]
        simp only [hmem, true_and, hg, Bool.true_and]
        omega
      · rw [if_neg hg]
        simp [hg]
    rw [List.map_congr_left hptwise, List.sum_map_add, sum_map_ite_countP,
      sum_map_ite_countP]
    have hcx : (childrenOf files q).countP (fun c => c == x) = (childrenOf files q).count x :=
      (List.count_eq_countP x (childrenOf files q)).symm
    rw [hcx]
    set children := childrenOf files q with hch
    set φ : FNode → Bool :=
      fun c => gate c && descD files gate fuel x (some c.id) with hφ
    by_cases hdir : x.parentId = q
    · have hxch : x ∈ children := mem_childrenOf.mpr ⟨hmem, hdir⟩
      have hcount : children.count x = 1 := List.count_eq_one_of_mem hchildnd hxch
      have hφ0 : children.countP φ = 0 := by
        rw [List.countP_eq_zero]
        intro c hc hφc
        rw [hφ, Bool.and_eq_true] at hφc
        obtain ⟨hgc, hdc⟩ := hφc
        obtain ⟨j, hj, y, hyidx, hypar, _⟩ :=
          (descD_iff files gate fuel x (some c.id)).mp hdc
        have hcid : chainIdx files (j + 1) x = some c :=
          chain_step_of_hit hnd (mem_childrenOf.mp hc).1 hyidx hypar
        have hx0 : chainIdx files 0 x = some x := rfl
        have := (hit_unique hd hcid hx0 (mem_childrenOf.mp hc).2 hdir).1
        omega
      have hdescD : descD files gate (fuel + 1) x q = true := by
        rw [descD_iff]
        exact ⟨0, by omega, x, rfl, hdir, fun i h1 h2 => by omega⟩
      rw [hcount, hφ0, if_pos ⟨hmem, hdescD⟩]
    · have hxnotch : x ∉ children := fun hc => hdir (mem_childrenOf.mp hc).2
      have hcount : children.count x = 0 := List.count_eq_zero_of_not_mem hxnotch
      by_cases hdesc : descD files gate (fuel + 1) x q = true
      · obtain ⟨j, hj, y, hyidx, hypar, hgates⟩ :=
          (descD_iff files gate (fuel + 1) x q).mp hdesc
        obtain ⟨j₀, rfl⟩ : ∃ j₀, j = j₀ + 1 := by
          cases j with
          | zero =>
            exfalso
            have hxy : y = x := Option.some.inj hyidx.symm
            exact hdir (by rw [← hxy]; exact hypar)
          | succ j₀ => exact ⟨j₀, rfl⟩
        have hymem : y ∈ files := chainIdx_mem hyidx
        have hych : y ∈ children := mem_childrenOf.mpr ⟨hymem, hypar⟩
        have hgy : gate y = true := by
          obtain ⟨z, hz, hgz⟩ := hgates (j₀ + 1) (by omega) (le_refl _)
          rw [hyidx] at hz
          have : y = z := Option.some.inj hz
          rw [this]
          exact hgz
        have hdy : descD files gate fuel x (some y.id) = true := by
          rw [descD_iff]
          have hw : ∃ w, chainIdx files j₀ x = some w ∧ par files w = some y := by
            rw [chainIdx_succ] at hyidx
            rcases hwx : chainIdx files j₀ x with _ | w
            · rw [hwx] at hyidx
              cases hyidx
            · rw [hwx, Option.some_bind] at hyidx
              exact ⟨w, rfl, hyidx⟩
          obtain ⟨w, hwidx, hwpar⟩ := hw
          have hwpid : w.parentId = some y.id := by
            rw [par] at hwpar
            rcases hwp : w.parentId with _ | pid
            · rw [hwp] at hwpar
              cases hwpar
            · rw [hwp, Option.some_bind] at hwpar
              rw [findNode_id hwpar]
          exact ⟨j₀, by omega, w, hwidx, hwpid, fun i h1 h2 => hgates i h1 (by omega)⟩
        have hφcount : children.countP φ = 1 := by
          have hiff : ∀ c ∈ children, (φ c = true ↔ c = y) := by
            intro c hc
            constructor
            · intro hφc
              rw [hφ, Bool.and_eq_true] at hφc
              obtain ⟨hgc, hdc⟩ := hφc
              obtain ⟨j₂, hj₂, y₂, hy₂idx, hy₂par, _⟩ :=
                (descD_iff files gate fuel x (some c.id)).mp hdc
              have hcidx : chainIdx files (j₂ + 1) x = some c :=
                chain_step_of_hit hnd (mem_childrenOf.mp hc).1 hy₂idx hy₂par
              exact (hit_unique hd hcidx hyidx (mem_childrenOf.mp hc).2 hypar).2
            · rintro rfl
              rw [hφ, Bool.and_eq_true]
              exact ⟨hgy, hdy⟩
          rw [countP_eq_count_single hiff, List.count_eq_one_of_mem hchildnd hych]
        rw [hcount, hφcount, if_pos ⟨hmem, hdesc⟩]
      · have hφ0 : children.countP φ = 0 := by
          rw [List.countP_eq_zero]
          intro c hc hφc
          rw [hφ, Bool.and_eq_true] at hφc
          obtain ⟨hgc, hdc⟩ := hφc
          apply hdesc
          rw [descD_iff]
          obtain ⟨j₂, hj₂, y₂, hy₂idx, hy₂par, hg₂⟩ :=
            (descD_iff files gate fuel x (some c.id)).mp hdc
          have hcidx : chainIdx files (j₂ + 1) x = some c :=
            chain_step_of_hit hnd (mem_childrenOf.mp hc).1 hy₂idx hy₂par
          refine ⟨j₂ + 1, by omega, c, hcidx, (mem_childrenOf.mp hc).2, ?_⟩
          intro i h1 h2
          rcases Nat.lt_or_ge i (j₂ + 1) with hlt | hge
          · exact hg₂ i h1 (by omega)
          · have he : i = j₂ + 1 := by omega
            subst he
            exact ⟨c, hcidx, hgc⟩
        rw [hcount, hφ0, if_neg (fun hcon => hdesc hcon.2)]

/-- On a cycle-free store with distinct ids, the collector emits exactly
the gated-reachable records (one occurrence each, in store order up to
permutation). -/
theorem collectG_perm (files : List FNode) (gate : FNode → Bool)
    (hnd : (files.map FNode.id).Nodup) (hroot : allRooted files = true)
    (fuel : Nat) (q : Option String) :
    (collectG files gate fuel q).Perm
      (files.filter (fun y => descD files gate fuel y q)) := by
  rw [List.perm_iff_count]
  intro z
  have hz : z ∈ files → ∃ d, chainLen files files.length z = some d := by
    intro hzm
    have := List.all_eq_true.mp hroot z hzm
    rw [Option.isSome_iff_exists] at this
    exact this
  rw [count_collectG files gate hnd z hz fuel q]
  by_cases hmem : z ∈ files
  · by_cases hdz : descD files gate fuel z q = true
    · rw [if_pos ⟨hmem, hdz⟩,
        @List.count_filter FNode _ _ (fun y => descD files gate fuel y q) z files hdz,
        List.count_eq_one_of_mem (nodup_of_idsNodup hnd) hmem]
    · have hnm : z ∉ List.filter (fun y => descD files gate fuel y q) files :=
        fun hzf => hdz (List.mem_filter.mp hzf).2
      rw [if_neg (fun h => hdz h.2), List.count_eq_zero_of_not_mem hnm]
  · have hnm : z ∉ List.filter (fun y => descD files gate fuel y q) files :=
      fun hzf => hmem (List.mem_filter.mp hzf).1
    rw [if_neg (fun h => hmem h.1), List.count_eq_zero_of_not_mem hnm]

/-! ## C8: `calculateFolderSize` -/

/-- The recursive descendant collection is the generic collector with the
folder gate. -/
theorem getChildrenRec_eq_collectG (files : List FNode) :
    ∀ (fuel : Nat) (pid : String),
      getChildrenRec files fuel pid
        = collectG files (fun c => c.type == FType.folder) fuel (some pid) := by
  intro fuel
  induction fuel with
  | zero =>
    intro pid
    rfl
  | succ fuel ih =>
    intro pid
    show (childrenOf files (some pid)).flatMap
        (fun c => c :: (if c.type = FType.folder then getChildrenRec files fuel c.id else []))
      = (childrenOf files (some pid)).flatMap
        (fun c => c :: (if (c.type == FType.folder) = true
            then collectG files (fun c => c.type == FType.folder) fuel (some c.id) else []))
    apply List.flatMap_congr
    intro c _
    by_cases hc : c.type = FType.folder
    · rw [if_pos hc, if_pos (by simp [hc]), ih]
    · rw [if_neg hc, if_neg (by simp [hc])]

/-- When every resolved parent is a folder (invariant I4), the folder gate
of the traversal never prunes: gated reachability is plain
reachability. -/
theorem descD_gate_of_parentsFolders (files : List FNode)
    (hpf : parentsFolders files = true) :
    ∀ (k : Nat) (x : FNode), x ∈ files → ∀ (q : Option String),
      descD files (fun c => c.type == FType.folder) k x q
        = descD files (fun _ => true) k x q := by
  intro k x hx q
  have h1 : ChainHit files (fun _ => true) k x q →
      ChainHit files (fun c => c.type == FType.folder) k x q := by
    rintro ⟨j, hj, y, hyidx, hypar, hgates⟩
    refine ⟨j, hj, y, hyidx, hypar, ?_⟩
    intro i hi1 hi2
    obtain ⟨z, hz, _⟩ := hgates i hi1 hi2
    refine ⟨z, hz, ?_⟩
    obtain ⟨i₀, rfl⟩ : ∃ i₀, i = i₀ + 1 := ⟨i - 1, by omega⟩
    rw [chainIdx_succ] at hz
    rcases hw : chainIdx files i₀ x with _ | w
    · rw [hw] at hz
      cases hz
    · rw [hw, Option.some_bind] at hz
      have hwmem : w ∈ files := by
        cases i₀ with
        | zero =>
          have hxw : x = w := Option.some.inj hw
          rw [← hxw]
          exact hx
        | succ i₁ => exact chainIdx_mem hw
      have hall := List.all_eq_true.mp hpf w hwmem
      simp only [hz] at hall
      exact hall
  have h2 : ChainHit files (fun c => c.type == FType.folder) k x q →
      ChainHit files (fun _ => true) k x q := by
    rintro ⟨j, hj, y, hyidx, hypar, hgates⟩
    refine ⟨j, hj, y, hyidx, hypar, ?_⟩
    intro i hi1 hi2
    obtain ⟨z, hz, _⟩ := hgates i hi1 hi2
    exact ⟨z, hz, rfl⟩
  cases hb2 : descD files (fun _ => true) k x q
  · cases hb1 : descD files (fun c => c.type == FType.folder) k x q
    · rfl
    · exfalso
      have := (descD_iff files (fun _ => true) k x q).mpr
        (h2 ((descD_iff files (fun c => c.type == FType.folder) k x q).mp hb1))
      rw [hb2] at this
      cases this
  · cases hb1 : descD files (fun c => c.type == FType.folder) k x q
    · exfalso
      have := (descD_iff files (fun c => c.type == FType.folder) k x q).mpr
        (h1 ((descD_iff files (fun _ => true) k x q).mp hb2))
      rw [hb1] at this
      cases this
    · rfl

/-- On a cycle-free store, being a proper descendant coincides with plain
reachability at fuel `files.length`. -/
theorem properDescB_iff (files : List FNode) (hroot : allRooted files = true)
    {y : FNode} (hy : y ∈ files) (anc : String) :
    properDescB files y anc
      = descD files (fun _ => true) files.length y (some anc) := by
  obtain ⟨d, hd⟩ : ∃ d, chainLen files files.length y = some d := by
    have := List.all_eq_true.mp hroot y hy
    rw [Option.isSome_iff_exists] at this
    exact this
  have hdn : d + 1 ≤ files.length := chainLen_bound hy hd
  cases hb1 : properDescB files y anc
  · cases hb2 : descD files (fun _ => true) files.length y (some anc)
    · rfl
    · exfalso
      obtain ⟨j, hj, w, hwidx, hwpar, _⟩ :=
        (descD_iff files (fun _ => true) files.length y (some anc)).mp hb2
      have htrue : properDescB files y anc = true := by
        rw [properDescB, List.any_eq_true]
        refine ⟨j, List.mem_range.mpr (by omega), ?_⟩
        rw [hwidx]
        show (w.parentId == some anc) = true
        simp [hwpar]
      rw [hb1] at htrue
      cases htrue
  · rw [properDescB, List.any_eq_true] at hb1
    obtain ⟨j, hjmem, hcond⟩ := hb1
    rcases hw : chainIdx files j y with _ | w
    · rw [hw] at hcond
      cases hcond
    · rw [hw] at hcond
      have hcond' : (w.parentId == some anc) = true := hcond
      have hwpar : w.parentId = some anc := by simpa using hcond'
      have hjd : j ≤ d := (chainIdx_isSome_iff hd j).mp (by rw [hw]; rfl)
      have hdesc : descD files (fun _ => true) files.length y (some anc) = true := by
        rw [descD_iff]
        refine ⟨j, by omega, w, hw, hwpar, ?_⟩
        intro i hi1 hi2
        have hsome : (chainIdx files i y).isSome :=
          (chainIdx_isSome_iff hd i).mpr (by omega)
        rcases hz : chainIdx files i y with _ | z
        · rw [hz] at hsome
          cases hsome
        · exact ⟨z, rfl, rfl⟩
      rw [hdesc]

/-- The size fold of `calculateFolderSize` is the sum of the sizes. -/
theorem foldl_add_size : ∀ (l : List FNode) (a : Nat),
    l.foldl (fun total f => total + f.size) a = a + (l.map FNode.size).sum := by
  intro l
  induction l with
  | nil =>
    intro a
    simp
  | cons f t ih =>
    intro a
    rw [List.foldl_cons, ih, List.map_cons, List.sum_cons]
    omega

/-- C8: on a store with distinct ids satisfying the acyclicity and
parents-are-folders invariants, `calculateFolderSize` returns the sum of
`size` over exactly the proper descendants of the folder having type
file (folders contribute 0 — only file records are summed); on the
concrete folder with direct files of sizes 100 and 250 and a nested
folder holding a file of size 50 it returns 400. -/
theorem calculateFolderSize_spec :
    (∀ (files : List FNode) (folderId : String),
       (files.map FNode.id).Nodup → allRooted files = true →
       parentsFolders files = true →
       calculateFolderSize files files.length folderId
         = ((files.filter (fun y =>
              properDescB files y folderId && y.type == FType.file)).map FNode.size).sum) ∧
    calculateFolderSize sizeStore 5 "F" = 400 := by
  constructor
  · intro files folderId hnd hroot hpf
    rw [calculateFolderSize, getAllDescendants, getChildrenRec_eq_collectG,
      foldl_add_size, Nat.zero_add]
    have hperm := collectG_perm files (fun c => c.type == FType.folder) hnd hroot
      files.length (some folderId)
    have hperm2 := hperm.filter (fun f => f.type == FType.file)
    have hsum := List.Perm.sum_eq (List.Perm.map FNode.size hperm2)
    rw [hsum, List.filter_filter]
    have hfe : List.filter (fun a => a.type == FType.file &&
          descD files (fun c => c.type == FType.folder) files.length a (some folderId)) files
        = List.filter (fun y => properDescB files y folderId && y.type == FType.file)
            files := by
      apply List.filter_congr
      intro y hy
      rw [descD_gate_of_parentsFolders files hpf files.length y hy (some folderId),
        ← properDescB_iff files hroot hy folderId, Bool.and_comm]
    rw [hfe]
  · decide

/-- Witness for C8's general statement at the concrete store. -/
theorem calculateFolderSize_spec_witness :
    calculateFolderSize sizeStore sizeStore.length "F"
      = ((sizeStore.filter (fun y =>
          properDescB sizeStore y "F" && y.type == FType.file)).map FNode.size).sum :=
  calculateFolderSize_spec.1 sizeStore "F" (by decide) (by decide) (by decide)

/-! ## C6: sibling ordering of the built forest -/

/-- The lexicographic comparison is total. -/
theorem lexLE_total : ∀ (a b : List Nat), lexLE a b = true ∨ lexLE b a = true := by
  intro a
  induction a with
  | nil =>
    intro b
    left
    rfl
  | cons x xs ih =>
    intro b
    cases b with
    | nil =>
      right
      rfl
    | cons y ys =>
      rw [lexLE, lexLE]
      by_cases hxy : x = y
      · rw [if_pos hxy, if_pos hxy.symm]
        exact ih ys
      · rw [if_neg hxy, if_neg (Ne.symm hxy)]
        rcases Nat.lt_or_ge x y with h | h
        · left
          simpa using h
        · right
          simp
          omega

/-- The lexicographic comparison is transitive. -/
theorem lexLE_trans : ∀ (a b c : List Nat),
    lexLE a b = true → lexLE b c = true → lexLE a c = true := by
  intro a
  induction a with
  | nil =>
    intro b c _ _
    rfl
  | cons x xs ih =>
    intro b c h1 h2
    cases b with
    | nil => cases h1
    | cons y ys =>
      cases c with
      | nil => cases h2
      | cons z zs =>
        rw [lexLE] at h1 h2 ⊢
        by_cases hxy : x = y
        · rw [if_pos hxy] at h1
          by_cases hyz : y = z
          · rw [if_pos hyz] at h2
            rw [if_pos (hxy.trans hyz)]
            exact ih ys zs h1 h2
          · rw [if_neg hyz] at h2
            have hyz' : y < z := by simpa using h2
            rw [if_neg (by omega : ¬ x = z)]
            simp
            omega
        · rw [if_neg hxy] at h1
          have hxy' : x < y := by simpa using h1
          by_cases hyz : y = z
          · rw [if_neg (by omega : ¬ x = z)]
            simp
            omega
          · rw [if_neg hyz] at h2
            have hyz' : y < z := by simpa using h2
            rw [if_neg (by omega : ¬ x = z)]
            simp
            omega

/-- The sibling comparator is total. -/
theorem nodeLE_total : ∀ (a b : FNode), (nodeLE a b || nodeLE b a) = true := by
  intro a b
  rw [nodeLE, nodeLE]
  by_cases hty : a.type = b.type
  · rw [if_pos hty, if_pos hty.symm]
    rcases lexLE_total (lowerKey a.name) (lowerKey b.name) with h | h
    · rw [h]
      rfl
    · rw [h]
      simp
  · rw [if_neg hty, if_neg (Ne.symm hty)]
    rcases ha : a.type <;> rcases hb : b.type
    · exact absurd (ha.trans hb.symm) hty
    · simp
    · simp
    · exact absurd (ha.trans hb.symm) hty

/-- The sibling comparator is transitive. -/
theorem nodeLE_trans : ∀ (a b c : FNode),
    nodeLE a b = true → nodeLE b c = true → nodeLE a c = true := by
  intro a b c h1 h2
  rw [nodeLE] at h1 h2 ⊢
  by_cases hab : a.type = b.type
  · rw [if_pos hab] at h1
    by_cases hbc : b.type = c.type
    · rw [if_pos hbc] at h2
      rw [if_pos (hab.trans hbc)]
      exact lexLE_trans _ _ _ h1 h2
    · rw [if_neg hbc] at h2
      have hbf : b.type = FType.folder := by simpa using h2
      rw [if_neg (by rw [hab]; exact hbc)]
      simp [hab.trans hbf]
  · rw [if_neg hab] at h1
    have haf : a.type = FType.folder := by simpa using h1
    have hbnot : b.type ≠ FType.folder := fun hbf => hab (haf.trans hbf.symm)
    by_cases hbc : b.type = c.type
    · rw [if_neg (fun hac => hab (hac.trans hbc.symm))]
      simp [haf]
    · rw [if_neg hbc] at h2
      have hbf : b.type = FType.folder := by simpa using h2
      exact absurd hbf hbnot

/-- Pairwise comparator order gives adjacent sibling order. -/
theorem chainNodes_of_pairwise : ∀ (l : List FTree),
    List.Pairwise (fun a b => treeLE a b = true) l → chainNodes l = true := by
  intro l
  induction l with
  | nil =>
    intro _
    rfl
  | cons a t ih =>
    intro h
    cases t with
    | nil => rfl
    | cons b ts =>
      obtain ⟨hrel, hrest⟩ := List.pairwise_cons.mp h
      rw [chainNodes]
      rw [Bool.and_eq_true]
      exact ⟨hrel b (List.mem_cons_self b ts), ih hrest⟩

/-- A list of trees each internally ordered has ordered child lists. -/
theorem childListsOrdered_of_all : ∀ (l : List FTree),
    (∀ t ∈ l, childListsOrdered [t] = true) → childListsOrdered l = true := by
  intro l
  induction l with
  | nil =>
    intro _
    rw [childListsOrdered]
  | cons a ts ih =>
    intro h
    rcases a with ⟨n, cs⟩
    have ha := h (.mk n cs) (List.mem_cons_self _ ts)
    rw [childListsOrdered] at ha ⊢
    rw [Bool.and_eq_true] at ha
    rw [Bool.and_eq_true]
    exact ⟨ha.1, ih (fun t ht => h t (List.mem_cons_of_mem _ ht))⟩

/-- Every subtree built by `buildNode` has its child list in comparator
order, recursively. -/
theorem buildNode_childLists (files : List FNode) :
    ∀ (fuel : Nat) (f : FNode), childListsOrdered [buildNode files fuel f] = true := by
  intro fuel
  induction fuel with
  | zero =>
    intro f
    rw [show buildNode files 0 f = .mk f [] from rfl]
    rw [childListsOrdered, childListsOrdered]
    rfl
  | succ fuel ih =>
    intro f
    rw [show buildNode files (fuel + 1) f
        = .mk f (((childrenOf files (some f.id)).map (buildNode files fuel)).mergeSort treeLE)
      from rfl]
    rw [childListsOrdered, childListsOrdered]
    have hchain : chainNodes
        (((childrenOf files (some f.id)).map (buildNode files fuel)).mergeSort treeLE)
        = true := by
      apply chainNodes_of_pairwise
      exact List.sorted_mergeSort (fun a b c => nodeLE_trans a.node b.node c.node)
        (fun a b => nodeLE_total a.node b.node) _
    have hrec : childListsOrdered
        (((childrenOf files (some f.id)).map (buildNode files fuel)).mergeSort treeLE)
        = true := by
      apply childListsOrdered_of_all
      intro t ht
      have ht' : t ∈ (childrenOf files (some f.id)).map (buildNode files fuel) :=
        (List.mergeSort_perm _ treeLE).mem_iff.mp ht
      obtain ⟨c, _, rfl⟩ := List.mem_map.mp ht'
      exact ih c
    rw [hchain, hrec]
    rfl

/-- C6: in every forest produced by `buildFileTree`, at every level
including the root list, adjacent siblings are ordered folders-first and,
within one type, in ascending case-insensitive lexicographic order of
`name` (the comparator `nodeLE`). -/
theorem buildFileTree_sibling_order :
    ∀ (files : Option (List FNode)), forestOrdered (buildFileTree files) = true := by
  intro files
  rcases files with _ | files
  · show forestOrdered [] = true
    rw [forestOrdered, childListsOrdered]
    rfl
  · rw [buildFileTree]
    by_cases hlen : files.length = 0
    · rw [if_pos hlen, forestOrdered, childListsOrdered]
      rfl
    · rw [if_neg hlen, buildForest, forestOrdered]
      have hchain : chainNodes
          (((childrenOf files none).map (buildNode files files.length)).mergeSort treeLE)
          = true := by
        apply chainNodes_of_pairwise
        exact List.sorted_mergeSort (fun a b c => nodeLE_trans a.node b.node c.node)
          (fun a b => nodeLE_total a.node b.node) _
      have hrec : childListsOrdered
          (((childrenOf files none).map (buildNode files files.length)).mergeSort treeLE)
          = true := by
        apply childListsOrdered_of_all
        intro t ht
        have ht' : t ∈ (childrenOf files none).map (buildNode files files.length) :=
          (List.mergeSort_perm _ treeLE).mem_iff.mp ht
        obtain ⟨c, _, rfl⟩ := List.mem_map.mp ht'
        exact buildNode_childLists files files.length c
      rw [hchain, hrec]
      rfl

/-! ## C1: structure of the built forest -/

/-- Equation: flattening the empty forest. -/
theorem flattenF_nil : flattenF ([] : List FTree) = [] := by
  rw [flattenF]

/-- Equation: flattening a forest headed by a tree. -/
theorem flattenF_cons (n : FNode) (cs rest : List FTree) :
    flattenF (FTree.mk n cs :: rest) = n :: (flattenF cs ++ flattenF rest) := by
  rw [flattenF]

/-- Equation: subtrees of the empty forest. -/
theorem subtreesF_nil : subtreesF ([] : List FTree) = [] := by
  rw [subtreesF]

/-- Equation: subtrees of a forest headed by a tree. -/
theorem subtreesF_cons (n : FNode) (cs rest : List FTree) :
    subtreesF (FTree.mk n cs :: rest)
      = FTree.mk n cs :: (subtreesF cs ++ subtreesF rest) := by
  rw [subtreesF]

/-- Counting flattened records tree by tree. -/
theorem count_flattenF : ∀ (ts : List FTree) (z : FNode),
    (flattenF ts).count z = (ts.map (fun t => (flattenF [t]).count z)).sum := by
  intro ts
  induction ts with
  | nil =>
    intro z
    rw [flattenF_nil]
    rfl
  | cons a rest ih =>
    intro z
    rcases a with ⟨n, cs⟩
    rw [show flattenF (FTree.mk n cs :: rest) = n :: (flattenF cs ++ flattenF rest) from
      flattenF_cons n cs rest]
    rw [List.map_cons, List.sum_cons]
    rw [show flattenF [FTree.mk n cs] = n :: (flattenF cs ++ flattenF []) from
      flattenF_cons n cs [], flattenF_nil, List.append_nil]
    rw [List.count_cons, List.count_cons, List.count_append, ih z]
    omega

/-- Flattening respects permutations of the tree list. -/
theorem flattenF_perm (l₁ l₂ : List FTree) (h : l₁.Perm l₂) :
    (flattenF l₁).Perm (flattenF l₂) := by
  rw [List.perm_iff_count]
  intro z
  rw [count_flattenF, count_flattenF]
  exact List.Perm.sum_eq (List.Perm.map _ h)

/-- `buildNode` wraps the given record. -/
theorem node_buildNode (files : List FNode) (fuel : Nat) (f : FNode) :
    (buildNode files fuel f).node = f := by
  cases fuel with
  | zero => simp [buildNode, FTree.node]
  | succ fuel => simp [buildNode, FTree.node]

/-- The flattened subtree of a record counts like the record followed by
the trivially-gated collector below it. -/
theorem count_flatten_buildNode (files : List FNode) :
    ∀ (fuel : Nat) (f : FNode) (z : FNode),
      (flattenF [buildNode files fuel f]).count z
        = ((f :: collectG files (fun _ => true) fuel (some f.id)).count z) := by
  intro fuel
  induction fuel with
  | zero =>
    intro f z
    have hb : buildNode files 0 f = .mk f [] := by simp [buildNode]
    rw [hb, flattenF_cons, flattenF_nil, List.append_nil]
    rfl
  | succ fuel ih =>
    intro f z
    have hb : buildNode files (fuel + 1) f
        = .mk f (((childrenOf files (some f.id)).map (buildNode files fuel)).mergeSort
            treeLE) := by
      simp [buildNode]
    rw [hb, flattenF_cons, flattenF_nil, List.append_nil, List.count_cons, List.count_cons]
    have hCS : (flattenF (((childrenOf files (some f.id)).map
          (buildNode files fuel)).mergeSort treeLE)).count z
        = (flattenF ((childrenOf files (some f.id)).map (buildNode files fuel))).count z :=
      (flattenF_perm _ _ (List.mergeSort_perm _ treeLE)).count_eq z
    rw [hCS, count_flattenF, List.map_map]
    have hcong : ∀ c ∈ childrenOf files (some f.id),
        ((fun t => (flattenF [t]).count z) ∘ buildNode files fuel) c
          = (fun c => ((c :: collectG files (fun _ => true) fuel (some c.id)).count z)) c := by
      intro c _
      exact ih c z
    rw [List.map_congr_left hcong]
    have hcol : collectG files (fun _ => true) (fuel + 1) (some f.id)
        = (childrenOf files (some f.id)).flatMap
            (fun c => c :: collectG files (fun _ => true) fuel (some c.id)) := by
      show (childrenOf files (some f.id)).flatMap
          (fun c => c :: (if (fun _ => true) c
              then collectG files (fun _ => true) fuel (some c.id) else [])) = _
      simp
    rw [hcol, List.count_flatMap]
    rfl

/-- The flattened forest counts like the trivially-gated collector at the
root query. -/
theorem count_flatten_buildForest (files : List FNode) (z : FNode) :
    (flattenF (buildForest files)).count z
      = (collectG files (fun _ => true) (files.length + 1) none).count z := by
  rw [buildForest]
  have h1 := (flattenF_perm _ _ (List.mergeSort_perm
    ((childrenOf files none).map (buildNode files files.length)) treeLE)).count_eq z
  rw [h1, count_flattenF, List.map_map]
  have hcong : ∀ c ∈ childrenOf files none,
      ((fun t => (flattenF [t]).count z) ∘ buildNode files files.length) c
        = (fun c =>
            ((c :: collectG files (fun _ => true) files.length (some c.id)).count z)) c := by
    intro c _
    exact count_flatten_buildNode files files.length c z
  rw [List.map_congr_left hcong]
  have hcol : collectG files (fun _ => true) (files.length + 1) none
      = (childrenOf files none).flatMap
          (fun c => c :: collectG files (fun _ => true) files.length (some c.id)) := by
    show (childrenOf files none).flatMap
        (fun c => c :: (if (fun _ => true) c
            then collectG files (fun _ => true) files.length (some c.id) else [])) = _
    simp
  rw [hcol, List.count_flatMap]
  rfl

/-- The roots of the built forest are exactly the null-parent records. -/
theorem buildForest_roots (files : List FNode) :
    ((buildForest files).map FTree.node).Perm (childrenOf files none) := by
  rw [buildForest]
  have h1 : (((((childrenOf files none).map (buildNode files files.length)).mergeSort
        treeLE)).map FTree.node).Perm
      (((childrenOf files none).map (buildNode files files.length)).map FTree.node) :=
    List.Perm.map _ (List.mergeSort_perm _ treeLE)
  refine h1.trans ?_
  rw [List.map_map]
  have hcong : ∀ c ∈ childrenOf files none,
      (FTree.node ∘ buildNode files files.length) c = id c := by
    intro c _
    exact node_buildNode files files.length c
  rw [List.map_congr_left hcong, List.map_id]

/-- On a cycle-free store without dangling parents, every record is
reachable from the root query. -/
theorem descD_true_root (files : List FNode) (hroot : allRooted files = true)
    (hdang : noDangling files = true) :
    ∀ z ∈ files, descD files (fun _ => true) (files.length + 1) z none = true := by
  intro z hz
  obtain ⟨d, hd⟩ : ∃ d, chainLen files files.length z = some d := by
    have := List.all_eq_true.mp hroot z hz
    rw [Option.isSome_iff_exists] at this
    exact this
  rw [descD_iff]
  obtain ⟨y, hy, hylen⟩ := chain_walk d d z files.length hd (le_refl d)
  have hpar : par files y = none := chainLen_zero_par (by simpa using hylen)
  have hymem : y ∈ files := by
    cases d with
    | zero =>
      have : z = y := Option.some.inj hy
      rw [← this]
      exact hz
    | succ d₀ => exact chainIdx_mem hy
  have hpid : y.parentId = none := by
    rcases hp : y.parentId with _ | pid
    · rfl
    · exfalso
      have hdang' := List.all_eq_true.mp hdang y hymem
      have hdang'' : (match y.parentId with
          | some pid => (findNode files pid).isSome
          | none => true) = true := hdang'
      rw [hp] at hdang''
      have hsome : (findNode files pid).isSome = true := hdang''
      rw [par, hp, Option.some_bind] at hpar
      rw [hpar] at hsome
      cases hsome
  refine ⟨d, ?_, y, hy, hpid, ?_⟩
  · have := chainLen_le_fuel hd
    omega
  · intro i h1 h2
    have hsome : (chainIdx files i z).isSome := (chainIdx_isSome_iff hd i).mpr (by omega)
    rcases hzz : chainIdx files i z with _ | w
    · rw [hzz] at hsome
      cases hsome
    · exact ⟨w, rfl, rfl⟩

/-- On a well-formed store, the built forest contains each store record
exactly once. -/
theorem buildFileTree_flatten_perm (files : List FNode)
    (hnd : (files.map FNode.id).Nodup) (hroot : allRooted files = true)
    (hdang : noDangling files = true) :
    (flattenF (buildFileTree (some files))).Perm files := by
  by_cases hlen : files.length = 0
  · have he : files = [] := List.length_eq_zero.mp hlen
    subst he
    rw [show buildFileTree (some ([] : List FNode)) = [] from rfl, flattenF_nil]
  · rw [buildFileTree, if_neg hlen]
    rw [List.perm_iff_count]
    intro z
    rw [count_flatten_buildForest]
    have hz : z ∈ files → ∃ d, chainLen files files.length z = some d := by
      intro hzm
      have := List.all_eq_true.mp hroot z hzm
      rw [Option.isSome_iff_exists] at this
      exact this
    rw [count_collectG files _ hnd z hz (files.length + 1) none]
    by_cases hmem : z ∈ files
    · rw [if_pos ⟨hmem, descD_true_root files hroot hdang z hmem⟩,
        List.count_eq_one_of_mem (nodup_of_idsNodup hnd) hmem]
    · rw [if_neg (fun h => hmem h.1), List.count_eq_zero_of_not_mem hmem]

/-- Subtree membership factors through the top-level trees. -/
theorem mem_subtreesF : ∀ (l : List FTree) (t : FTree),
    t ∈ subtreesF l ↔ ∃ r ∈ l, t ∈ subtreesF [r] := by
  intro l
  induction l with
  | nil =>
    intro t
    rw [subtreesF_nil]
    simp
  | cons a rest ih =>
    intro t
    rcases a with ⟨n, cs⟩
    have hL : subtreesF (FTree.mk n cs :: rest)
        = FTree.mk n cs :: (subtreesF cs ++ subtreesF rest) := subtreesF_cons n cs rest
    have hS : subtreesF [FTree.mk n cs] = FTree.mk n cs :: subtreesF cs := by
      rw [subtreesF_cons, subtreesF_nil, List.append_nil]
    constructor
    · intro h
      rw [hL, List.mem_cons, List.mem_append] at h
      rcases h with rfl | hcs | hrest
      · exact ⟨FTree.mk n cs, List.mem_cons_self _ _,
          by rw [hS]; exact List.mem_cons_self _ _⟩
      · exact ⟨FTree.mk n cs, List.mem_cons_self _ _,
          by rw [hS]; exact List.mem_cons_of_mem _ hcs⟩
      · obtain ⟨r, hr, htr⟩ := (ih t).mp hrest
        exact ⟨r, List.mem_cons_of_mem _ hr, htr⟩
    · rintro ⟨r, hr, htr⟩
      rcases List.mem_cons.mp hr with rfl | hr'
      · rw [hS] at htr
        rw [hL, List.mem_cons, List.mem_append]
        rcases List.mem_cons.mp htr with rfl | hcs
        · left
          rfl
        · right
          left
          exact hcs
      · rw [hL, List.mem_cons, List.mem_append]
        right
        right
        exact (ih t).mpr ⟨r, hr', htr⟩

/-- On a well-formed store, every subtree of a built tree carries exactly
the store children of its record as its child list (permuted by the
sibling sort): the fuel never truncates the construction. -/
theorem subtree_children (files : List FNode) (hnd : (files.map FNode.id).Nodup) :
    ∀ (fuel : Nat) (f : FNode) (e : Nat), f ∈ files →
      chainLen files files.length f = some e → files.length ≤ fuel + e →
      ∀ t ∈ subtreesF [buildNode files fuel f],
        ((t.children.map FTree.node).Perm (childrenOf files (some t.node.id))) := by
  intro fuel
  induction fuel with
  | zero =>
    intro f e hf hlen hbud t ht
    exfalso
    have := chainLen_bound hf hlen
    omega
  | succ fuel ih =>
    intro f e hf hlen hbud t ht
    have hb : buildNode files (fuel + 1) f
        = .mk f (((childrenOf files (some f.id)).map (buildNode files fuel)).mergeSort
            treeLE) := by
      simp [buildNode]
    rw [hb] at ht
    rw [subtreesF_cons, subtreesF_nil, List.append_nil, List.mem_cons] at ht
    rcases ht with rfl | hdeep
    · show ((((childrenOf files (some f.id)).map (buildNode files fuel)).mergeSort
          treeLE).map FTree.node).Perm (childrenOf files (some f.id))
      have h1 : ((((childrenOf files (some f.id)).map (buildNode files fuel)).mergeSort
            treeLE).map FTree.node).Perm
          (((childrenOf files (some f.id)).map (buildNode files fuel)).map FTree.node) :=
        List.Perm.map _ (List.mergeSort_perm _ treeLE)
      refine h1.trans ?_
      rw [List.map_map]
      have hcong : ∀ c ∈ childrenOf files (some f.id),
          (FTree.node ∘ buildNode files fuel) c = id c := by
        intro c _
        exact node_buildNode files fuel c
      rw [List.map_congr_left hcong, List.map_id]
    · obtain ⟨r, hr, htr⟩ := (mem_subtreesF _ t).mp hdeep
      have hr' : r ∈ (childrenOf files (some f.id)).map (buildNode files fuel) :=
        (List.mergeSort_perm _ treeLE).mem_iff.mp hr
      obtain ⟨c, hc, rfl⟩ := List.mem_map.mp hr'
      have hcmem : c ∈ files := (mem_childrenOf.mp hc).1
      have hcpar : c.parentId = some f.id := (mem_childrenOf.mp hc).2
      have hparc : par files c = some f := by
        rw [par, hcpar, Option.some_bind, findNode_self hnd hf]
      obtain ⟨n₀, hn⟩ : ∃ n₀, files.length = n₀ + 1 :=
        ⟨files.length - 1, by
          have : 0 < files.length := List.length_pos.mpr (List.ne_nil_of_mem hf)
          omega⟩
      have hebound : e + 1 ≤ files.length := chainLen_bound hf hlen
      have hlenc : chainLen files files.length c = some (e + 1) := by
        rw [hn, chainLen, hparc]
        show Option.map (· + 1) (chainLen files n₀ f) = some (e + 1)
        rw [chainLen_any_fuel hlen n₀ (by omega)]
        rfl
      exact ih c (e + 1) hcmem hlenc (by omega) t htr

/-- C1 (counterexample): a record whose `parentId` refers to an id not in
the input is dropped from the forest entirely — it appears neither as a
root nor anywhere else, and the forest has fewer nodes than the input. -/
theorem buildFileTree_orphan_dropped :
    buildFileTree (some [orphanNode]) = [] ∧ orphanNode.parentId = some "zzz" ∧
      findNode [orphanNode] "zzz" = none := by
  refine ⟨?_, rfl, rfl⟩
  rw [buildFileTree, if_neg (by decide), buildForest]
  rw [show childrenOf [orphanNode] none = [] from rfl]
  rw [List.map_nil]
  simp

/-- C1 (amended): the roots of the forest built by `buildFileTree` are
exactly the records with null `parentId` (records with a dangling
`parentId` are dropped, not treated as roots); and when the input has
distinct ids, cycle-free parent chains and no dangling parent references,
the forest contains exactly the input records — node count equal to the
input count — and every subtree's child list consists of exactly the
records whose `parentId` is that subtree's id. -/
theorem buildFileTree_structure :
    ∀ (files : List FNode),
      (((buildFileTree (some files)).map FTree.node).Perm
        (files.filter (fun f => f.parentId == none))) ∧
      ((files.map FNode.id).Nodup → allRooted files = true → noDangling files = true →
        (flattenF (buildFileTree (some files))).Perm files ∧
        (flattenF (buildFileTree (some files))).length = files.length ∧
        (∀ t ∈ subtreesF (buildFileTree (some files)),
          ((t.children.map FTree.node).Perm (childrenOf files (some t.node.id))))) := by
  intro files
  constructor
  · by_cases hlen : files.length = 0
    · have he : files = [] := List.length_eq_zero.mp hlen
      subst he
      rw [show buildFileTree (some ([] : List FNode)) = [] from rfl]
      exact List.Perm.nil
    · rw [buildFileTree, if_neg hlen]
      exact buildForest_roots files
  · intro hnd hroot hdang
    have hperm := buildFileTree_flatten_perm files hnd hroot hdang
    refine ⟨hperm, hperm.length_eq, ?_⟩
    intro t ht
    by_cases hlen : files.length = 0
    · exfalso
      have he : files = [] := List.length_eq_zero.mp hlen
      subst he
      rw [show buildFileTree (some ([] : List FNode)) = [] from rfl, subtreesF_nil] at ht
      cases ht
    · rw [buildFileTree, if_neg hlen, buildForest] at ht
      obtain ⟨r, hr, htr⟩ := (mem_subtreesF _ t).mp ht
      have hr' : r ∈ (childrenOf files none).map (buildNode files files.length) :=
        (List.mergeSort_perm _ treeLE).mem_iff.mp hr
      obtain ⟨rt, hrt, rfl⟩ := List.mem_map.mp hr'
      have hrtmem : rt ∈ files := (mem_childrenOf.mp hrt).1
      have hrtpar : rt.parentId = none := (mem_childrenOf.mp hrt).2
      have hpar : par files rt = none := by
        rw [par, hrtpar]
        rfl
      have hlen0 : chainLen files files.length rt = some 0 := by
        cases hfl : files.length with
        | zero => rw [chainLen, hpar]
        | succ m => rw [chainLen, hpar]
      exact subtree_children files hnd files.length rt 0 hrtmem hlen0 (by omega) t htr

/-- Witness for C1's amended theorem: on the concrete well-formed store
the forest carries exactly as many nodes as the input. -/
theorem buildFileTree_structure_witness :
    (flattenF (buildFileTree (some sizeStore))).length = sizeStore.length :=
  ((buildFileTree_structure sizeStore).2 (by decide) (by decide) (by decide)).2.1
